import Mathlib

/-!
Verification of the lockedarchive repository core: a shallow embedding of the
crypto/stream/cache/service code paths named by the frozen claims, together
with theorems settling each claim.

Modelling conventions.
 * Byte strings are `List Nat`; a list is a valid byte string when every
   element is below 256.  Go array/slice sizes become length hypotheses.
 * External libraries (NaCl secretbox, scrypt, base64, JSON) are modelled by
   executable stand-ins that preserve exactly the contracts the source relies
   on (sizes, determinism, inverse and authentication behaviour); each model
   carries a doc comment saying what it stands for.
 * Randomness (`GenerateNonce`, `GenerateSalt`, key generation) is passed in
   as explicit parameters.
 * Go panics are modelled as a distinct `panicked` outcome where a claim is
   about them.
-/

namespace LockedArchive

/-- A valid byte string: every element is a byte value. -/
def validBytes (l : List Nat) : Prop :=
  ∀ b ∈ l, b < 256

instance validBytes_decidable (l : List Nat) : Decidable (validBytes l) := by
  unfold validBytes
  infer_instance

/-- Injective numeric encoding of a byte string (little-endian base 257 with
digits shifted by one so that the empty list is distinguished).  Used by the
models of external primitives to build tags and digests. -/
def encodeBytes : List Nat → Nat
  | [] => 0
  | b :: rest => (b + 1) + 257 * encodeBytes rest

theorem encodeBytes_inj : ∀ {l₁ l₂ : List Nat}, validBytes l₁ → validBytes l₂ →
    encodeBytes l₁ = encodeBytes l₂ → l₁ = l₂ := by
  intro l₁
  induction l₁ with
  | nil =>
    intro l₂ _ h₂ h
    cases l₂ with
    | nil => rfl
    | cons b rest =>
      exfalso
      simp only [encodeBytes] at h
      omega
  | cons b rest ih =>
    intro l₂ h₁ h₂ h
    cases l₂ with
    | nil =>
      exfalso
      simp only [encodeBytes] at h
      omega
    | cons c rest₂ =>
      simp only [encodeBytes] at h
      have hb : b < 256 := h₁ b (by simp)
      have hc : c < 256 := h₂ c (by simp)
      have hbc : b = c ∧ encodeBytes rest = encodeBytes rest₂ := ⟨by omega, by omega⟩
      have hrest : rest = rest₂ :=
        ih (fun x hx => h₁ x (by simp [hx])) (fun x hx => h₂ x (by simp [hx])) hbc.2
      rw [hbc.1, hrest]

/-- Little-endian value of a byte string (least significant byte first). -/
def leVal : List Nat → Nat
  | [] => 0
  | b :: rest => b + 256 * leVal rest

theorem leVal_lt : ∀ {l : List Nat}, validBytes l → leVal l < 256 ^ l.length := by
  intro l
  induction l with
  | nil => intro _; simp [leVal]
  | cons b rest ih =>
    intro h
    have hb : b < 256 := h b (by simp)
    have hr := ih (fun x hx => h x (by simp [hx]))
    simp only [leVal, List.length_cons, pow_succ]
    calc b + 256 * leVal rest < 256 + 256 * leVal rest := by omega
    _ = 256 * (leVal rest + 1) := by ring
    _ ≤ 256 * 256 ^ rest.length := by
        have : leVal rest + 1 ≤ 256 ^ rest.length := hr
        exact Nat.mul_le_mul_left 256 this
    _ = 256 ^ rest.length * 256 := by ring

theorem leVal_inj : ∀ {l₁ l₂ : List Nat}, validBytes l₁ → validBytes l₂ →
    l₁.length = l₂.length → leVal l₁ = leVal l₂ → l₁ = l₂ := by
  intro l₁
  induction l₁ with
  | nil =>
    intro l₂ _ _ hlen _
    cases l₂ with
    | nil => rfl
    | cons c r => simp at hlen
  | cons b rest ih =>
    intro l₂ h₁ h₂ hlen hval
    cases l₂ with
    | nil => simp at hlen
    | cons c rest₂ =>
      simp only [leVal] at hval
      have hb : b < 256 := h₁ b (by simp)
      have hc : c < 256 := h₂ c (by simp)
      have hbc : b = c := by omega
      have hrec : leVal rest = leVal rest₂ := by omega
      have : rest = rest₂ :=
        ih (fun x hx => h₁ x (by simp [hx])) (fun x hx => h₂ x (by simp [hx]))
          (by simpa using hlen) hrec
      rw [hbc, this]

/-! ## Model of NaCl secretbox (external library `golang.org/x/crypto/nacl/secretbox`)

The source only relies on the following contract, which the model realises
executably: `Seal` is deterministic, its output is `Overhead = 16` bytes
longer than the message, and `Open` inverts `Seal` under the same key and
nonce while rejecting a box sealed under a different key (authentication).
The cipher layer is a self-inverse XOR keystream (XSalsa20 semantics); the
16-entry authenticator stores digests of key, nonce and message (Poly1305
stands in). -/

/-- Overhead of a sealed secretbox message, `secretbox.Overhead` in Go. -/
def sbOverhead : Nat := 16

/-- Keystream byte `i` for the model stream cipher. -/
def ksByte (key nonce : List Nat) (i : Nat) : Nat :=
  (encodeBytes key + encodeBytes nonce + i) % 256

/-- XOR the message with the keystream starting at position `i`;
self-inverse. -/
def xorStream (key nonce : List Nat) (i : Nat) : List Nat → List Nat
  | [] => []
  | b :: rest => (b ^^^ ksByte key nonce i) :: xorStream key nonce (i + 1) rest

theorem xorStream_length (key nonce : List Nat) :
    ∀ (i : Nat) (m : List Nat), (xorStream key nonce i m).length = m.length := by
  intro i m
  induction m generalizing i with
  | nil => rfl
  | cons b rest ih => simp [xorStream, ih]

theorem xorStream_xorStream (key nonce : List Nat) :
    ∀ (i : Nat) (m : List Nat), xorStream key nonce i (xorStream key nonce i m) = m := by
  intro i m
  induction m generalizing i with
  | nil => rfl
  | cons b rest ih =>
    simp only [xorStream, ih]
    congr 1
    rw [Nat.xor_assoc, Nat.xor_self, Nat.xor_zero]

/-- Authenticator of the model secretbox: 16 entries digesting key, nonce
and message. -/
def sbTag (key nonce m : List Nat) : List Nat :=
  encodeBytes key :: encodeBytes nonce :: encodeBytes m :: List.replicate 13 0

theorem sbTag_length (key nonce m : List Nat) : (sbTag key nonce m).length = 16 := by
  simp [sbTag]

/-- Model of `secretbox.Seal nil message nonce key`: authenticator followed by
the keystream-masked message; `m.length + 16` bytes long. -/
def secretboxSeal (key nonce m : List Nat) : List Nat :=
  sbTag key nonce m ++ xorStream key nonce 0 m

theorem secretboxSeal_length (key nonce m : List Nat) :
    (secretboxSeal key nonce m).length = m.length + sbOverhead := by
  simp only [secretboxSeal, List.length_append, sbTag, List.length_cons,
    List.length_replicate, xorStream_length, sbOverhead]
  omega

/-- Model of `secretbox.Open nil box nonce key`: recovers the message and
checks the authenticator, returning `none` on failure. -/
def secretboxOpen (key nonce c : List Nat) : Option (List Nat) :=
  if c.length < sbOverhead then none
  else
    let m := xorStream key nonce 0 (c.drop 16)
    if c.take 16 = sbTag key nonce m then some m else none

theorem secretboxOpen_seal (key nonce m : List Nat) :
    secretboxOpen key nonce (secretboxSeal key nonce m) = some m := by
  have hlen : (secretboxSeal key nonce m).length = m.length + 16 := secretboxSeal_length key nonce m
  have htake : (secretboxSeal key nonce m).take 16 = sbTag key nonce m := by
    have := sbTag_length key nonce m
    simp only [secretboxSeal]
    rw [List.take_append_of_le_length (by omega), List.take_of_length_le (by omega)]
  have hdrop : (secretboxSeal key nonce m).drop 16 = xorStream key nonce 0 m := by
    have := sbTag_length key nonce m
    simp only [secretboxSeal]
    rw [List.drop_append_of_le_length (by omega), List.drop_of_length_le (by omega)]
    simp
  simp only [secretboxOpen, hlen, sbOverhead]
  rw [if_neg (by omega), hdrop, xorStream_xorStream, htake, if_pos rfl]

/-- Opening a box under a key with a different digest fails (model of
Poly1305 authentication). -/
theorem secretboxOpen_wrong_key (key key₂ nonce nonce₂ m : List Nat)
    (hk : encodeBytes key₂ ≠ encodeBytes key) :
    secretboxOpen key₂ nonce₂ (secretboxSeal key nonce m) = none := by
  have hlen : (secretboxSeal key nonce m).length = m.length + 16 := secretboxSeal_length key nonce m
  have htake : (secretboxSeal key nonce m).take 16 = sbTag key nonce m := by
    have := sbTag_length key nonce m
    simp only [secretboxSeal]
    rw [List.take_append_of_le_length (by omega), List.take_of_length_le (by omega)]
  simp only [secretboxOpen, hlen, sbOverhead]
  rw [if_neg (by omega), htake]
  rw [if_neg]
  intro hcontra
  simp only [sbTag, List.cons.injEq] at hcontra
  exact hk hcontra.1.symm

/-! ## Model of Go `encoding/base64` StdEncoding (external library)

The source relies only on the encoding being injective and decodable; the
concrete alphabet never matters to the claims.  The model is a
length-prefixed identity code, with decoding failing when the prefix is
inconsistent. -/

/-- Model of `base64.StdEncoding.EncodeToString`. -/
def b64encode (bs : List Nat) : List Nat :=
  bs.length :: bs

/-- Model of `base64.StdEncoding.DecodeString`; fails on malformed input. -/
def b64decode : List Nat → Option (List Nat)
  | [] => none
  | n :: rest => if rest.length = n then some rest else none

theorem b64decode_encode (bs : List Nat) : b64decode (b64encode bs) = some bs := by
  simp [b64encode, b64decode]

/-! ## Model of scrypt (external library `golang.org/x/crypto/scrypt`)

`scrypt.Key(pass, salt, 1<<15, 8, 1, KeySize)` is modelled as a
deterministic 32-byte digest of the passphrase and salt.  Theorems that rely
on two passphrases deriving to different keys carry that inequality as an
explicit hypothesis, which is the actual cryptographic assumption. -/

/-- Size of keys in bytes (`KeySize` in both the `secure` and `stream`
packages). -/
def KeySize : Nat := 32

/-- Model of the scrypt key derivation used by
`PassphraseContainer.DeriveKeyContainer`. -/
def deriveKey (pass salt : List Nat) : List Nat :=
  (List.range KeySize).map (fun i => (encodeBytes pass + 257 * encodeBytes salt + i) % 256)

theorem deriveKey_length (pass salt : List Nat) : (deriveKey pass salt).length = 32 := by
  simp [deriveKey, KeySize]

theorem deriveKey_valid (pass salt : List Nat) : validBytes (deriveKey pass salt) := by
  intro b hb
  simp only [deriveKey, List.mem_map] at hb
  obtain ⟨i, _, hi⟩ := hb
  omega

/-! ## The `stream` package (src/stream/encrypt.go)

Readers and writers become plain byte lists: the reader argument of
`Encrypt`/`Decrypt` is the full upstream byte sequence, and the frames
written to `w` are collected in a list.  `GenerateNonce` becomes an explicit
initial-nonce parameter. -/

/-- `NonceSize` from src/stream/encrypt.go. -/
def NonceSize : Nat := 24

/-- `EncryptionChunkSize` from src/stream/encrypt.go. -/
def EncryptionChunkSize : Nat := 3927

/-- `DecryptionChunkSize = EncryptionChunkSize + NonceSize +
secretbox.Overhead` from src/stream/encrypt.go. -/
def DecryptionChunkSize : Nat := EncryptionChunkSize + NonceSize + sbOverhead

/-- Errors surfaced by the stream codec. -/
inductive StreamErr
  | encrypt
  | decrypt
  | encryptSize
  deriving DecidableEq, Repr

/-- One pass of the byte-increment loop in `IncrementNonce`, acting on the
little-endian (reversed) list of the bytes the loop visits: the byte at the
current index is incremented mod 256 and the loop continues leftwards
exactly when it wrapped to zero. -/
def incLE : List Nat → List Nat
  | [] => []
  | b :: rest =>
    if (b + 1) % 256 = 0 then (b + 1) % 256 :: incLE rest
    else (b + 1) % 256 :: rest

/-- `IncrementNonce` from src/stream/encrypt.go (identical code in the
`secure` package): the loop `for i := NonceSize-1; i > 0; i--` increments
bytes 23 down to 1 with carry and never touches byte 0. -/
def IncrementNonce (nonce : List Nat) : List Nat :=
  match nonce with
  | [] => []
  | b0 :: tail => b0 :: (incLE tail.reverse).reverse

theorem incLE_length : ∀ l : List Nat, (incLE l).length = l.length := by
  intro l
  induction l with
  | nil => rfl
  | cons b rest ih =>
    by_cases h : (b + 1) % 256 = 0 <;> simp [incLE, h, ih]

theorem incLE_valid : ∀ l : List Nat, validBytes l → validBytes (incLE l) := by
  intro l
  induction l with
  | nil => intro h; exact h
  | cons b rest ih =>
    intro h x hx
    by_cases hc : (b + 1) % 256 = 0
    · simp only [incLE, if_pos hc] at hx
      rcases List.mem_cons.mp hx with h1 | h2
      · omega
      · exact ih (fun y hy => h y (by simp [hy])) x h2
    · simp only [incLE, if_neg hc] at hx
      rcases List.mem_cons.mp hx with h1 | h2
      · omega
      · exact h x (by simp [h2])

theorem incLE_head : ∀ (b : Nat) (rest : List Nat),
    ∃ t, incLE (b :: rest) = (b + 1) % 256 :: t := by
  intro b rest
  by_cases h : (b + 1) % 256 = 0
  · exact ⟨incLE rest, by simp [incLE, h]⟩
  · exact ⟨rest, by simp [incLE, h]⟩

theorem incLE_leVal : ∀ l : List Nat, validBytes l →
    leVal (incLE l) = (leVal l + 1) % 256 ^ l.length := by
  intro l
  induction l with
  | nil => intro _; simp [incLE, leVal]
  | cons b rest ih =>
    intro h
    have hb : b < 256 := h b (by simp)
    have hrest : validBytes rest := fun y hy => h y (by simp [hy])
    by_cases hc : (b + 1) % 256 = 0
    · have hb255 : b = 255 := by omega
      simp only [incLE, if_pos hc, leVal, hc, List.length_cons]
      rw [ih hrest]
      subst hb255
      have h256 : (255 + 256 * leVal rest + 1) = 256 * (leVal rest + 1) := by ring
      rw [h256, pow_succ, Nat.mul_comm (256 ^ rest.length) 256, Nat.mul_mod_mul_left]
      omega
    · have hlt : b + 1 < 256 := by omega
      have hmod : (b + 1) % 256 = b + 1 := Nat.mod_eq_of_lt hlt
      simp only [incLE, if_neg hc, leVal, hmod, List.length_cons]
      have hv : leVal rest < 256 ^ rest.length := leVal_lt hrest
      have : b + 256 * leVal rest + 1 < 256 ^ (rest.length + 1) := by
        have h1 : b + 256 * leVal rest + 1 < 256 * (leVal rest + 1) := by omega
        have h2 : 256 * (leVal rest + 1) ≤ 256 * 256 ^ rest.length :=
          Nat.mul_le_mul_left 256 hv
        calc b + 256 * leVal rest + 1 < 256 * (leVal rest + 1) := h1
        _ ≤ 256 * 256 ^ rest.length := h2
        _ = 256 ^ (rest.length + 1) := by rw [pow_succ]; ring
      rw [Nat.mod_eq_of_lt this]
      ring

/-- Big-endian value of a byte string (most significant byte first), matching
the "big-endian value" reading of a nonce. -/
def beVal (l : List Nat) : Nat :=
  leVal l.reverse

/-- The action of `IncrementNonce` on the 23 bytes it visits (bytes 1..23 of
the nonce). -/
def incTail (t : List Nat) : List Nat :=
  (incLE t.reverse).reverse

theorem IncrementNonce_cons (b0 : Nat) (t : List Nat) :
    IncrementNonce (b0 :: t) = b0 :: incTail t := rfl

theorem incTail_length (t : List Nat) : (incTail t).length = t.length := by
  simp [incTail, incLE_length]

theorem incTail_valid (t : List Nat) (h : validBytes t) : validBytes (incTail t) := by
  intro x hx
  simp only [incTail, List.mem_reverse] at hx
  exact incLE_valid t.reverse (fun y hy => h y (List.mem_reverse.mp hy)) x hx

theorem incTail_beVal (t : List Nat) (h : validBytes t) :
    beVal (incTail t) = (beVal t + 1) % 256 ^ t.length := by
  have hrev : validBytes t.reverse := fun y hy => h y (List.mem_reverse.mp hy)
  simp only [beVal, incTail, List.reverse_reverse]
  rw [incLE_leVal t.reverse hrev, List.length_reverse]

theorem IncrementNonce_length (n : List Nat) : (IncrementNonce n).length = n.length := by
  cases n with
  | nil => rfl
  | cons b0 t => simp [IncrementNonce_cons, incTail_length]

theorem IncrementNonce_valid (n : List Nat) (h : validBytes n) :
    validBytes (IncrementNonce n) := by
  cases n with
  | nil => exact h
  | cons b0 t =>
    intro x hx
    rw [IncrementNonce_cons] at hx
    rcases List.mem_cons.mp hx with h1 | h2
    · exact h x (by simp [h1])
    · exact incTail_valid t (fun y hy => h y (by simp [hy])) x h2

theorem mod256_add_one_ne (b : Nat) : (b + 1) % 256 ≠ b := by omega

theorem mod256_add_two_ne (b : Nat) : (b + 2) % 256 ≠ b := by omega

theorem incTail_ne (t : List Nat) (ht : t ≠ []) : incTail t ≠ t := by
  intro hcontra
  have hrev : incLE t.reverse = t.reverse := by
    have : (incTail t).reverse = t.reverse := by rw [hcontra]
    simpa [incTail] using this
  obtain ⟨c, r, hcr⟩ : ∃ c r, t.reverse = c :: r := by
    cases hrt : t.reverse with
    | nil => exact absurd (by simpa using congrArg List.reverse hrt) ht
    | cons c r => exact ⟨c, r, rfl⟩
  obtain ⟨t₁, ht₁⟩ := incLE_head c r
  rw [hcr, ht₁] at hrev
  exact mod256_add_one_ne c (by simpa using congrArg (fun l => l.headI) hrev)

theorem incTail_incTail_ne (t : List Nat) (ht : t ≠ []) : incTail (incTail t) ≠ t := by
  intro hcontra
  have hrev : incLE (incLE t.reverse) = t.reverse := by
    have : (incTail (incTail t)).reverse = t.reverse := by rw [hcontra]
    simpa [incTail] using this
  obtain ⟨c, r, hcr⟩ : ∃ c r, t.reverse = c :: r := by
    cases hrt : t.reverse with
    | nil => exact absurd (by simpa using congrArg List.reverse hrt) ht
    | cons c r => exact ⟨c, r, rfl⟩
  obtain ⟨t₁, ht₁⟩ := incLE_head c r
  obtain ⟨t₂, ht₂⟩ := incLE_head ((c + 1) % 256) t₁
  rw [hcr, ht₁, ht₂] at hrev
  have hhead : ((c + 1) % 256 + 1) % 256 = c := by
    simpa using congrArg (fun l => l.headI) hrev
  omega

theorem IncrementNonce_ne (n : List Nat) (hn : 2 ≤ n.length) : IncrementNonce n ≠ n := by
  cases n with
  | nil => simp at hn
  | cons b0 t =>
    rw [IncrementNonce_cons]
    intro hcontra
    have ht : t ≠ [] := by
      intro h
      rw [h] at hn
      simp at hn
    exact incTail_ne t ht (by simpa using hcontra)

theorem IncrementNonce_two_ne (n : List Nat) (hn : 2 ≤ n.length) :
    IncrementNonce (IncrementNonce n) ≠ n := by
  cases n with
  | nil => simp at hn
  | cons b0 t =>
    rw [IncrementNonce_cons, IncrementNonce_cons]
    intro hcontra
    have ht : t ≠ [] := by
      intro h
      rw [h] at hn
      simp at hn
    exact incTail_incTail_ne t ht (by simpa using hcontra)

/-- `GetChunk` (stream package): reads from the reader until the chunk buffer
is filled or the reader is exhausted.  For a list reader it returns the bytes
read, the remaining stream, and whether end-of-stream was reached while
filling (Go: the returned `io.EOF`). -/
def GetChunk (bufSize : Nat) (r : List Nat) : List Nat × List Nat × Bool :=
  (r.take bufSize, r.drop bufSize, decide (r.length < bufSize))

/-- `EncryptBytes` from src/stream/encrypt.go: the nonce is prepended to the
secretbox ciphertext. -/
def EncryptBytes (key nonce m : List Nat) : List Nat :=
  nonce ++ secretboxSeal key nonce m

theorem EncryptBytes_length (key nonce m : List Nat) :
    (EncryptBytes key nonce m).length = nonce.length + m.length + 16 := by
  simp only [EncryptBytes, List.length_append, secretboxSeal_length, sbOverhead]
  omega

/-- `DecryptBytes` from src/stream/encrypt.go: rejects short inputs, then
extracts the nonce from the first 24 bytes and opens the rest. -/
def DecryptBytes (key msg : List Nat) : Except StreamErr (List Nat) :=
  if msg.length < NonceSize + sbOverhead then .error .decrypt
  else
    match secretboxOpen key (msg.take NonceSize) (msg.drop NonceSize) with
    | none => .error .decrypt
    | some m => .ok m

theorem DecryptBytes_EncryptBytes (key nonce m : List Nat) (hn : nonce.length = 24) :
    DecryptBytes key (EncryptBytes key nonce m) = .ok m := by
  have hlen : (EncryptBytes key nonce m).length = 24 + (m.length + 16) := by
    rw [EncryptBytes_length, hn]
    omega
  have htake : (EncryptBytes key nonce m).take 24 = nonce := by
    simp only [EncryptBytes]
    rw [List.take_append_of_le_length (by omega), List.take_of_length_le (by omega)]
  have hdrop : (EncryptBytes key nonce m).drop 24 = secretboxSeal key nonce m := by
    simp only [EncryptBytes]
    rw [List.drop_append_of_le_length (by omega), List.drop_of_length_le (by omega)]
    simp
  simp only [DecryptBytes, hlen, NonceSize, sbOverhead]
  rw [if_neg (by omega), htake, hdrop, secretboxOpen_seal]

/-- The loop body of `Encrypt` from src/stream/encrypt.go, collecting the
frames written to `w`.  Each iteration increments the running nonce, aborts
with `ErrEncryptSize` if it has returned to the initial nonce, reads a chunk,
and emits one frame per non-empty chunk; it returns at end-of-stream.  The
second component is the error returned by `Encrypt`, if any. -/
def encryptFrames (key n0 nonce r : List Nat) : List (List Nat) × Option StreamErr :=
  if IncrementNonce nonce = n0 then ([], some StreamErr.encryptSize)
  else
    if h : (GetChunk EncryptionChunkSize r).2.2 = true then
      (if 0 < (GetChunk EncryptionChunkSize r).1.length then
        [EncryptBytes key (IncrementNonce nonce) (GetChunk EncryptionChunkSize r).1]
      else [], none)
    else
      let rest := encryptFrames key n0 (IncrementNonce nonce) (GetChunk EncryptionChunkSize r).2.1
      (EncryptBytes key (IncrementNonce nonce) (GetChunk EncryptionChunkSize r).1 :: rest.1,
        rest.2)
termination_by r.length
decreasing_by
  simp only [GetChunk, EncryptionChunkSize, decide_eq_true_eq, List.length_drop] at h ⊢
  omega

/-- `Encrypt` from src/stream/encrypt.go over a list reader and writer, with
the random initial nonce as a parameter: the concatenation of the emitted
frames, or the error. -/
def Encrypt (key n0 r : List Nat) : Except StreamErr (List Nat) :=
  match encryptFrames key n0 n0 r with
  | (frames, none) => .ok frames.flatten
  | (_, some e) => .error e

/-- `Decrypt` from src/stream/encrypt.go over a list reader: reads
`DecryptionChunkSize`-byte chunks and concatenates the decrypted chunks,
stopping at the first failure. -/
def Decrypt (key c : List Nat) : Except StreamErr (List Nat) :=
  if h : (GetChunk DecryptionChunkSize c).2.2 = true then
    if 0 < (GetChunk DecryptionChunkSize c).1.length then
      match DecryptBytes key (GetChunk DecryptionChunkSize c).1 with
      | .error e => .error e
      | .ok m => .ok m
    else .ok []
  else
    match DecryptBytes key (GetChunk DecryptionChunkSize c).1 with
    | .error e => .error e
    | .ok m =>
      match Decrypt key (GetChunk DecryptionChunkSize c).2.1 with
      | .error e => .error e
      | .ok rest => .ok (m ++ rest)
termination_by c.length
decreasing_by
  simp only [GetChunk, DecryptionChunkSize, EncryptionChunkSize, NonceSize, sbOverhead,
    decide_eq_true_eq, List.length_drop] at h ⊢
  omega

/-- `maxChunkCount = math.Exp2(NonceSize)` from src/stream/encrypt.go; the
float value is exactly `2 ^ 24` (the byte count 24 is used as the exponent). -/
def maxChunkCount : Nat := 2 ^ NonceSize

/-- `IsTooLargeToChunk` from src/stream/encrypt.go: integer division of the
size by the chunk size, compared against `maxChunkCount`.  The Go comparison
converts the quotient to `float64`, which is exact for every `int64` quotient
of a division by 3927, so the natural-number comparison is faithful. -/
def IsTooLargeToChunk (size : Nat) : Bool :=
  decide (size / EncryptionChunkSize > maxChunkCount)

theorem encryptFrames_wrap (key n0 nonce r : List Nat) (hw : IncrementNonce nonce = n0) :
    encryptFrames key n0 nonce r = ([], some StreamErr.encryptSize) := by
  rw [encryptFrames, if_pos hw]

theorem encryptFrames_small (key n0 nonce r : List Nat)
    (hw : IncrementNonce nonce ≠ n0) (hr : r.length < EncryptionChunkSize) :
    encryptFrames key n0 nonce r =
      (if 0 < r.length then [EncryptBytes key (IncrementNonce nonce) r] else [], none) := by
  rw [encryptFrames, if_neg hw]
  have heof : (GetChunk EncryptionChunkSize r).2.2 = true := by
    simp [GetChunk, hr]
  rw [dif_pos heof]
  have htk : (GetChunk EncryptionChunkSize r).1 = r := by
    simp only [GetChunk]
    exact List.take_of_length_le (by omega)
  rw [htk]

theorem encryptFrames_step (key n0 nonce r : List Nat)
    (hw : IncrementNonce nonce ≠ n0) (hr : ¬ r.length < EncryptionChunkSize) :
    encryptFrames key n0 nonce r =
      (EncryptBytes key (IncrementNonce nonce) (r.take EncryptionChunkSize) ::
          (encryptFrames key n0 (IncrementNonce nonce) (r.drop EncryptionChunkSize)).1,
        (encryptFrames key n0 (IncrementNonce nonce) (r.drop EncryptionChunkSize)).2) := by
  rw [encryptFrames, if_neg hw]
  have heof : ¬ (GetChunk EncryptionChunkSize r).2.2 = true := by
    simp [GetChunk]
    omega
  rw [dif_neg heof]
  simp only [GetChunk]

theorem Decrypt_nil (key : List Nat) : Decrypt key [] = .ok [] := by
  rw [Decrypt]
  have heof : (GetChunk DecryptionChunkSize []).2.2 = true := by
    simp [GetChunk, DecryptionChunkSize, EncryptionChunkSize, NonceSize, sbOverhead]
  rw [dif_pos heof]
  simp [GetChunk]

theorem Decrypt_small (key c : List Nat) (hc : 0 < c.length)
    (hlen : c.length < DecryptionChunkSize) :
    Decrypt key c = DecryptBytes key c := by
  rw [Decrypt]
  have heof : (GetChunk DecryptionChunkSize c).2.2 = true := by
    simp [GetChunk, hlen]
  rw [dif_pos heof]
  have htk : (GetChunk DecryptionChunkSize c).1 = c := by
    simp only [GetChunk]
    exact List.take_of_length_le (by omega)
  rw [htk, if_pos hc]
  cases DecryptBytes key c with
  | error e => rfl
  | ok m => rfl

theorem Decrypt_step (key c : List Nat) (hlen : ¬ c.length < DecryptionChunkSize) :
    Decrypt key c =
      match DecryptBytes key (c.take DecryptionChunkSize) with
      | .error e => .error e
      | .ok m =>
        match Decrypt key (c.drop DecryptionChunkSize) with
        | .error e => .error e
        | .ok rest => .ok (m ++ rest) := by
  rw [Decrypt]
  have heof : ¬ (GetChunk DecryptionChunkSize c).2.2 = true := by
    simp [GetChunk]
    omega
  rw [dif_neg heof]
  simp only [GetChunk]

theorem Decrypt_encryptFrames (key n0 : List Nat) :
    ∀ (n : Nat) (r nonce : List Nat) (frames : List (List Nat)), r.length ≤ n →
      nonce.length = 24 →
      encryptFrames key n0 nonce r = (frames, none) →
      Decrypt key frames.flatten = .ok r := by
  intro n
  induction n with
  | zero =>
    intro r nonce frames hn hnonce henc
    have hr0 : r = [] := List.length_eq_zero.mp (by omega)
    subst hr0
    by_cases hw : IncrementNonce nonce = n0
    · rw [encryptFrames_wrap key n0 nonce [] hw] at henc
      exact absurd (congrArg Prod.snd henc) (by simp)
    · rw [encryptFrames_small key n0 nonce [] hw (by simp [EncryptionChunkSize])] at henc
      have hf : frames = [] := by
        have := congrArg Prod.fst henc
        simpa using this.symm
      subst hf
      simpa using Decrypt_nil key
  | succ n ih =>
    intro r nonce frames hn hnonce henc
    have hn1 : (IncrementNonce nonce).length = 24 := by
      rw [IncrementNonce_length, hnonce]
    by_cases hw : IncrementNonce nonce = n0
    · rw [encryptFrames_wrap key n0 nonce r hw] at henc
      exact absurd (congrArg Prod.snd henc) (by simp)
    · by_cases hr : r.length < EncryptionChunkSize
      · rw [encryptFrames_small key n0 nonce r hw hr] at henc
        by_cases hrpos : 0 < r.length
        · have hf : frames = [EncryptBytes key (IncrementNonce nonce) r] := by
            have := congrArg Prod.fst henc
            simpa [hrpos] using this.symm
          subst hf
          have hflen : (EncryptBytes key (IncrementNonce nonce) r).length =
              24 + r.length + 16 := by
            rw [EncryptBytes_length, hn1]
          have hrlen : r.length < 3927 := by
            simpa [EncryptionChunkSize] using hr
          simp only [List.flatten_cons, List.flatten_nil, List.append_nil]
          rw [Decrypt_small key _ (by omega)
            (by rw [hflen]; simp only [DecryptionChunkSize, EncryptionChunkSize, NonceSize,
              sbOverhead]; omega)]
          exact DecryptBytes_EncryptBytes key (IncrementNonce nonce) r hn1
        · have hr0 : r = [] := List.length_eq_zero.mp (by omega)
          subst hr0
          have hf : frames = [] := by
            have := congrArg Prod.fst henc
            simpa using this.symm
          subst hf
          simpa using Decrypt_nil key
      · rw [encryptFrames_step key n0 nonce r hw hr] at henc
        set rest := encryptFrames key n0 (IncrementNonce nonce) (r.drop EncryptionChunkSize)
          with hrest
        have hf : frames =
            EncryptBytes key (IncrementNonce nonce) (r.take EncryptionChunkSize) :: rest.1 := by
          have := congrArg Prod.fst henc
          simpa using this.symm
        have hsnd : rest.2 = none := by
          have := congrArg Prod.snd henc
          simpa using this
        have hrec : encryptFrames key n0 (IncrementNonce nonce) (r.drop EncryptionChunkSize) =
            (rest.1, none) := by
          rw [← hrest, ← hsnd]
        have hdroplen : (r.drop EncryptionChunkSize).length ≤ n := by
          simp only [List.length_drop, EncryptionChunkSize] at hr ⊢
          omega
        have hih := ih (r.drop EncryptionChunkSize) (IncrementNonce nonce) rest.1
          hdroplen hn1 hrec
        subst hf
        have htklen : (r.take EncryptionChunkSize).length = EncryptionChunkSize := by
          simp only [List.length_take]
          omega
        have hflen : (EncryptBytes key (IncrementNonce nonce)
            (r.take EncryptionChunkSize)).length = DecryptionChunkSize := by
          rw [EncryptBytes_length, hn1, htklen]
          simp only [DecryptionChunkSize, EncryptionChunkSize, NonceSize, sbOverhead]
        simp only [List.flatten_cons]
        have hclen : ¬ (EncryptBytes key (IncrementNonce nonce) (r.take EncryptionChunkSize) ++
            rest.1.flatten).length < DecryptionChunkSize := by
          rw [List.length_append, hflen]
          omega
        rw [Decrypt_step key _ hclen]
        have htk : (EncryptBytes key (IncrementNonce nonce) (r.take EncryptionChunkSize) ++
            rest.1.flatten).take DecryptionChunkSize =
            EncryptBytes key (IncrementNonce nonce) (r.take EncryptionChunkSize) := by
          rw [List.take_append_of_le_length (by omega), List.take_of_length_le (by omega)]
        have hdp : (EncryptBytes key (IncrementNonce nonce) (r.take EncryptionChunkSize) ++
            rest.1.flatten).drop DecryptionChunkSize = rest.1.flatten := by
          rw [List.drop_append_of_le_length (by omega), List.drop_of_length_le (by omega)]
          simp
        rw [htk, hdp,
          DecryptBytes_EncryptBytes key (IncrementNonce nonce) (r.take EncryptionChunkSize) hn1,
          hih]
        simp

/-- Round trip of the chunked stream codec: whenever `Encrypt` succeeds,
`Decrypt` of its output under the same key reproduces the plaintext. -/
theorem Decrypt_Encrypt (key n0 r out : List Nat) (hn : n0.length = 24)
    (henc : Encrypt key n0 r = .ok out) : Decrypt key out = .ok r := by
  unfold Encrypt at henc
  cases hfr : encryptFrames key n0 n0 r with
  | mk frames err =>
    cases err with
    | some e =>
      rw [hfr] at henc
      exact absurd henc (by simp)
    | none =>
      rw [hfr] at henc
      have hout : out = frames.flatten := by
        have := henc
        simp only [Except.ok.injEq] at this
        exact this.symm
      rw [hout]
      exact Decrypt_encryptFrames key n0 r.length r n0 frames (le_refl _) hn hfr

theorem beVal_lt (t : List Nat) (h : validBytes t) : beVal t < 256 ^ t.length := by
  have hrev : validBytes t.reverse := fun y hy => h y (List.mem_reverse.mp hy)
  have := leVal_lt hrev
  rwa [List.length_reverse] at this

theorem beVal_inj {t₁ t₂ : List Nat} (h₁ : validBytes t₁) (h₂ : validBytes t₂)
    (hlen : t₁.length = t₂.length) (hv : beVal t₁ = beVal t₂) : t₁ = t₂ := by
  have hr₁ : validBytes t₁.reverse := fun y hy => h₁ y (List.mem_reverse.mp hy)
  have hr₂ : validBytes t₂.reverse := fun y hy => h₂ y (List.mem_reverse.mp hy)
  have : t₁.reverse = t₂.reverse :=
    leVal_inj hr₁ hr₂ (by simp [hlen]) hv
  simpa using congrArg List.reverse this

/-- Characterisation of iterated nonce increments: the first byte never
changes and the remaining bytes behave as a big-endian counter modulo
`256 ^ 23`. -/
theorem IncrementNonce_iterate (i : Nat) : ∀ (b0 : Nat) (t : List Nat), validBytes t →
    ∃ u, IncrementNonce^[i] (b0 :: t) = b0 :: u ∧ validBytes u ∧ u.length = t.length ∧
      beVal u = (beVal t + i) % 256 ^ t.length := by
  induction i with
  | zero =>
    intro b0 t ht
    exact ⟨t, by simp, ht, rfl, by rw [Nat.add_zero, Nat.mod_eq_of_lt (beVal_lt t ht)]⟩
  | succ i ih =>
    intro b0 t ht
    have hstep : IncrementNonce^[i + 1] (b0 :: t) = IncrementNonce^[i] (b0 :: incTail t) := by
      rw [Function.iterate_succ_apply, IncrementNonce_cons]
    obtain ⟨u, hu, huv, hul, huval⟩ := ih b0 (incTail t) (incTail_valid t ht)
    refine ⟨u, by rw [hstep, hu], huv, by rw [hul, incTail_length], ?_⟩
    rw [huval, incTail_beVal t ht, incTail_length, Nat.mod_add_mod]
    congr 1
    omega

/-- Within one counter cycle, iterated nonce increments are injective. -/
theorem IncrementNonce_iterate_inj (b0 : Nat) (t : List Nat) (ht : validBytes t)
    {i j : Nat} (hi : i < 256 ^ t.length) (hj : j < 256 ^ t.length)
    (h : IncrementNonce^[i] (b0 :: t) = IncrementNonce^[j] (b0 :: t)) : i = j := by
  obtain ⟨u, hu, huv, hul, huval⟩ := IncrementNonce_iterate i b0 t ht
  obtain ⟨w, hw, hwv, hwl, hwval⟩ := IncrementNonce_iterate j b0 t ht
  rw [hu, hw] at h
  have huw : u = w := by simpa using h
  have hval : (beVal t + i) % 256 ^ t.length = (beVal t + j) % 256 ^ t.length := by
    rw [← huval, ← hwval, huw]
  have hmodeq : Nat.ModEq (256 ^ t.length) (beVal t + i) (beVal t + j) := hval
  have hij : Nat.ModEq (256 ^ t.length) i j := Nat.ModEq.add_left_cancel' (beVal t) hmodeq
  have : i % 256 ^ t.length = j % 256 ^ t.length := hij
  rwa [Nat.mod_eq_of_lt hi, Nat.mod_eq_of_lt hj] at this

/-- Returning to the initial nonce takes exactly a full `256 ^ 23` cycle. -/
theorem IncrementNonce_iterate_cycle (b0 : Nat) (t : List Nat) (ht : validBytes t) :
    IncrementNonce^[256 ^ t.length] (b0 :: t) = b0 :: t := by
  obtain ⟨u, hu, huv, hul, huval⟩ := IncrementNonce_iterate (256 ^ t.length) b0 t ht
  have : beVal u = beVal t := by
    rw [huval, Nat.add_mod_right, Nat.mod_eq_of_lt (beVal_lt t ht)]
  rw [hu, beVal_inj huv ht hul this]

/-- The nonces of the frames emitted by the encryption loop starting at
`nonce` form a consecutive run of increments, none of which equals the
initial nonce `n0`. -/
theorem encryptFrames_nonce_run (key n0 : List Nat) :
    ∀ (n : Nat) (r nonce : List Nat), r.length ≤ n → nonce.length = 24 →
      ∃ k, ((encryptFrames key n0 nonce r).1).map (fun f => f.take 24) =
          (List.range k).map (fun i => IncrementNonce^[i + 1] nonce) ∧
        ∀ i, 1 ≤ i → i ≤ k → IncrementNonce^[i] nonce ≠ n0 := by
  intro n
  induction n with
  | zero =>
    intro r nonce hlen hnl
    have hr0 : r = [] := List.length_eq_zero.mp (by omega)
    subst hr0
    by_cases hw : IncrementNonce nonce = n0
    · refine ⟨0, ?_, ?_⟩
      · rw [encryptFrames_wrap key n0 nonce [] hw]
        simp
      · intro i h1 h2
        omega
    · refine ⟨0, ?_, ?_⟩
      · rw [encryptFrames_small key n0 nonce [] hw (by simp [EncryptionChunkSize])]
        simp
      · intro i h1 h2
        omega
  | succ n ih =>
    intro r nonce hlen hnl
    have hn1 : (IncrementNonce nonce).length = 24 := by
      rw [IncrementNonce_length, hnl]
    by_cases hw : IncrementNonce nonce = n0
    · refine ⟨0, ?_, ?_⟩
      · rw [encryptFrames_wrap key n0 nonce r hw]
        simp
      · intro i h1 h2
        omega
    · by_cases hr : r.length < EncryptionChunkSize
      · rw [encryptFrames_small key n0 nonce r hw hr]
        by_cases hrpos : 0 < r.length
        · refine ⟨1, ?_, ?_⟩
          · have htk : (EncryptBytes key (IncrementNonce nonce) r).take 24 =
                IncrementNonce nonce := by
              simp only [EncryptBytes]
              rw [List.take_append_of_le_length (by omega), List.take_of_length_le (by omega)]
            simp [hrpos, htk]
          · intro i h1 h2
            have : i = 1 := by omega
            subst this
            simpa using hw
        · refine ⟨0, by simp [hrpos], ?_⟩
          intro i h1 h2
          omega
      · rw [encryptFrames_step key n0 nonce r hw hr]
        have hdroplen : (r.drop EncryptionChunkSize).length ≤ n := by
          simp only [List.length_drop, EncryptionChunkSize] at hr ⊢
          omega
        obtain ⟨k, hmap, hne⟩ := ih (r.drop EncryptionChunkSize) (IncrementNonce nonce)
          hdroplen hn1
        refine ⟨k + 1, ?_, ?_⟩
        · have htk : (EncryptBytes key (IncrementNonce nonce)
              (r.take EncryptionChunkSize)).take 24 = IncrementNonce nonce := by
            simp only [EncryptBytes]
            rw [List.take_append_of_le_length (by omega), List.take_of_length_le (by omega)]
          have htail : (List.range k).map
                (fun i => IncrementNonce^[i + 1] (IncrementNonce nonce)) =
              (List.range k).map ((fun i => IncrementNonce^[i + 1] nonce) ∘ Nat.succ) := by
            apply List.map_congr_left
            intro i hi
            exact (Function.iterate_succ_apply IncrementNonce (i + 1) nonce).symm
          simp only [List.map_cons, htk, hmap, htail]
          rw [List.range_succ_eq_map, List.map_cons, List.map_map]
          simp
        · intro i h1 h2
          match i, h1 with
          | 1, _ => simpa using hw
          | (j + 2), _ =>
            have : IncrementNonce^[j + 2] nonce =
                IncrementNonce^[j + 1] (IncrementNonce nonce) := by
              rw [Function.iterate_succ_apply]
            rw [this]
            exact hne (j + 1) (by omega) (by omega)

/-! ## The `secure` package (src/unnamed/part_001)

Memory containers (`memguard`) only affect wiping, not values, so containers
become the byte lists they hold; a `nil` passphrase container is `none`.
`GenerateSalt`/`GenerateNonce` become explicit parameters. -/

/-- `SaltSize` from the `secure` package. -/
def SaltSize : Nat := 8

/-- Errors of the `secure` package. -/
inductive SecErr
  | encrypt
  | decrypt
  | passphraseNotSet
  | wipedPassphrase
  | badEncoding
  deriving DecidableEq, Repr

/-- Outcome of a `secure` operation, distinguishing Go panics from returned
errors. -/
inductive SecResult (α : Type)
  | ok (a : α)
  | err (e : SecErr)
  | panicked
  deriving DecidableEq, Repr

namespace Secure

/-- The `bytes.Equal(pass, make([]byte, size))` check in
`DeriveKeyContainer`. -/
def allZero (l : List Nat) : Bool :=
  l.all (fun b => b = 0)

/-- `PassphraseContainer.DeriveKeyContainer`: fails when the passphrase copy
reads as wiped (all zero bytes), otherwise derives the scrypt key. -/
def DeriveKeyContainer (pass salt : List Nat) : Except SecErr (List Nat) :=
  if allZero pass then .error .wipedPassphrase else .ok (deriveKey pass salt)

/-- `secure.Encrypt`: the nonce is prepended to the secretbox ciphertext. -/
def Encrypt (kc nonce message : List Nat) : List Nat :=
  nonce ++ secretboxSeal kc nonce message

/-- `secure.EncryptAndWipe` encrypts exactly as `Encrypt` (the wipe only
zeroes the caller's buffer). -/
def EncryptAndWipe (kc nonce message : List Nat) : List Nat :=
  Encrypt kc nonce message

/-- `secure.Decrypt`: rejects inputs shorter than `NonceSize + Overhead`,
then extracts the nonce and opens. -/
def Decrypt (kc message : List Nat) : Except SecErr (List Nat) :=
  if message.length < NonceSize + sbOverhead then .error .decrypt
  else
    match secretboxOpen kc (message.take NonceSize) (message.drop NonceSize) with
    | none => .error .decrypt
    | some m => .ok m

/-- `secure.EncryptWithSalt` with the random salt as a parameter. -/
def EncryptWithSalt (pc : Option (List Nat)) (salt nonce message : List Nat) :
    Except SecErr (List Nat) :=
  match pc with
  | none => .error .passphraseNotSet
  | some pass =>
    match DeriveKeyContainer pass salt with
    | .error e => .error e
    | .ok kc => .ok (salt ++ Encrypt kc nonce message)

/-- `secure.EncryptWithSaltAndWipe` encrypts exactly as `EncryptWithSalt`. -/
def EncryptWithSaltAndWipe (pc : Option (List Nat)) (salt nonce message : List Nat) :
    Except SecErr (List Nat) :=
  EncryptWithSalt pc salt nonce message

/-- `secure.EncryptWithSaltToString` with the random salt and nonce as
parameters. -/
def EncryptWithSaltToString (pc : Option (List Nat)) (salt nonce message : List Nat) :
    Except SecErr (List Nat) :=
  match EncryptWithSalt pc salt nonce message with
  | .error e => .error e
  | .ok ct => .ok (b64encode ct)

/-- `secure.DecryptWithSalt`.  The Go code copies `message[:SaltSize]`
without a length guard: on an input shorter than 8 bytes the slice
expression panics, modelled by `SecResult.panicked`. -/
def DecryptWithSalt (pc : Option (List Nat)) (message : List Nat) : SecResult (List Nat) :=
  match pc with
  | none => .err .passphraseNotSet
  | some pass =>
    if message.length < SaltSize then .panicked
    else
      match DeriveKeyContainer pass (message.take SaltSize) with
      | .error e => .err e
      | .ok kc =>
        match Decrypt kc (message.drop SaltSize) with
        | .error e => .err e
        | .ok m => .ok m

/-- `secure.decryptWithSaltFromBase64`. -/
def decryptWithSaltFromBase64 (pc : Option (List Nat)) (encoded : List Nat) :
    SecResult (List Nat) :=
  match b64decode encoded with
  | none => .err .badEncoding
  | some ct => DecryptWithSalt pc ct

/-- `secure.DecryptWithSaltFromStringToKey`; the memguard wrap returns the
plaintext key bytes unchanged. -/
def DecryptWithSaltFromStringToKey (pc : Option (List Nat)) (encoded : List Nat) :
    SecResult (List Nat) :=
  decryptWithSaltFromBase64 pc encoded

end Secure

theorem Secure.Decrypt_of_Encrypt (kc nonce m : List Nat) (hn : nonce.length = 24) :
    Secure.Decrypt kc (Secure.Encrypt kc nonce m) = .ok m := by
  have hlen : (Secure.Encrypt kc nonce m).length = 24 + (m.length + 16) := by
    simp only [Secure.Encrypt, List.length_append, secretboxSeal_length, sbOverhead, hn]
  have htake : (Secure.Encrypt kc nonce m).take NonceSize = nonce := by
    simp only [Secure.Encrypt, NonceSize]
    rw [List.take_append_of_le_length (by omega), List.take_of_length_le (by omega)]
  have hdrop : (Secure.Encrypt kc nonce m).drop NonceSize = secretboxSeal kc nonce m := by
    simp only [Secure.Encrypt, NonceSize]
    rw [List.drop_append_of_le_length (by omega), List.drop_of_length_le (by omega)]
    simp
  simp only [Secure.Decrypt, hlen, NonceSize, sbOverhead]
  rw [if_neg (by omega)]
  rw [show List.take 24 (Secure.Encrypt kc nonce m) = nonce from htake,
    show List.drop 24 (Secure.Encrypt kc nonce m) = secretboxSeal kc nonce m from hdrop,
    secretboxOpen_seal]

theorem Secure.wrap_key_eq (pass salt nonce dek : List Nat)
    (hnz : Secure.allZero pass = false) :
    Secure.EncryptWithSaltToString (some pass) salt nonce dek =
      .ok (b64encode (salt ++ Secure.Encrypt (deriveKey pass salt) nonce dek)) := by
  simp only [Secure.EncryptWithSaltToString, Secure.EncryptWithSalt, Secure.DeriveKeyContainer,
    hnz, Bool.false_eq_true, if_false]

theorem Secure.unwrap_wrap (pass salt nonce dek : List Nat) (hs : salt.length = 8)
    (hn : nonce.length = 24) (hnz : Secure.allZero pass = false) :
    Secure.DecryptWithSaltFromStringToKey (some pass)
      (b64encode (salt ++ Secure.Encrypt (deriveKey pass salt) nonce dek)) = .ok dek := by
  have henclen : (Secure.Encrypt (deriveKey pass salt) nonce dek).length =
      24 + (dek.length + 16) := by
    simp only [Secure.Encrypt, List.length_append, secretboxSeal_length, sbOverhead, hn]
  simp only [Secure.DecryptWithSaltFromStringToKey, Secure.decryptWithSaltFromBase64,
    b64decode_encode]
  simp only [Secure.DecryptWithSalt, SaltSize]
  rw [if_neg (by simp only [List.length_append]; omega)]
  have htake : (salt ++ Secure.Encrypt (deriveKey pass salt) nonce dek).take 8 = salt := by
    rw [List.take_append_of_le_length (by omega), List.take_of_length_le (by omega)]
  have hdrop : (salt ++ Secure.Encrypt (deriveKey pass salt) nonce dek).drop 8 =
      Secure.Encrypt (deriveKey pass salt) nonce dek := by
    rw [List.drop_append_of_le_length (by omega), List.drop_of_length_le (by omega)]
    simp
  rw [htake, hdrop]
  simp only [Secure.DeriveKeyContainer, hnz, Bool.false_eq_true, if_false]
  rw [Secure.Decrypt_of_Encrypt (deriveKey pass salt) nonce dek hn]

/-! ## Model of Go `encoding/json` (external library)

The source marshals structures whose fields are strings, booleans and
integers, honouring the struct tags (a field tagged `json:"-"` is omitted).
The model is an injective length-prefixed encoding with a decoder; the
concrete JSON syntax never matters to the claims, only which fields are
included and that marshalling round-trips. -/

/-- Length-prefixed encoding of one byte-string field. -/
def encField (s : List Nat) : List Nat :=
  s.length :: s

/-- Parse one length-prefixed field, returning it and the rest of the
input. -/
def parseStr : List Nat → Option (List Nat × List Nat)
  | [] => none
  | n :: rest => if n ≤ rest.length then some (rest.take n, rest.drop n) else none

theorem parseStr_encField (s rest : List Nat) :
    parseStr (encField s ++ rest) = some (s, rest) := by
  simp only [encField, List.cons_append, parseStr, List.length_append]
  rw [if_pos (by omega)]
  rw [List.take_append_of_le_length (by omega), List.take_of_length_le (by omega),
    List.drop_append_of_le_length (by omega), List.drop_of_length_le (by omega)]
  simp

/-! ## The `cloud` package (src/cloud/cloud.go, the `secure.KeyContainer`
version at lines 182-216) -/

/-- `cloud.Entry`.  `time.Time` and `os.FileMode` values are abstracted to
naturals; `Size int64` is a natural since it comes from `FileInfo.Size`. -/
structure Entry where
  id : List Nat
  key : List Nat
  parentID : List Nat
  name : List Nat
  isDir : Bool
  size : Nat
  lastModified : Nat
  mode : Nat
  deriving DecidableEq, Repr

/-- The fields of an `Entry` other than `id`. -/
def entryFields (e : Entry) : List Nat × List Nat × List Nat × Bool × Nat × Nat × Nat :=
  (e.key, e.parentID, e.name, e.isDir, e.size, e.lastModified, e.mode)

/-- Model of `json.Marshal(entry)`: the `ID` field carries the tag
`json:"-"` and is omitted; every other field is encoded. -/
def marshalEntry (e : Entry) : List Nat :=
  encField e.key ++ encField e.parentID ++ encField e.name ++
    [if e.isDir then 1 else 0, e.size, e.lastModified, e.mode]

/-- Decoder inverting `marshalEntry`, recovering every field but `id`. -/
def unmarshalEntry (bs : List Nat) :
    Option (List Nat × List Nat × List Nat × Bool × Nat × Nat × Nat) :=
  match parseStr bs with
  | none => none
  | some (key, r₁) =>
    match parseStr r₁ with
    | none => none
    | some (parentID, r₂) =>
      match parseStr r₂ with
      | none => none
      | some (name, r₃) =>
        match r₃ with
        | [d, s, m, f] => some (key, parentID, name, d = 1, s, m, f)
        | _ => none

theorem unmarshalEntry_marshalEntry (e : Entry) :
    unmarshalEntry (marshalEntry e) = some (entryFields e) := by
  simp only [marshalEntry, unmarshalEntry, List.append_assoc, parseStr_encField, entryFields]
  cases e.isDir <;> simp

theorem marshalEntry_inj (e₁ e₂ : Entry) (h : marshalEntry e₁ = marshalEntry e₂) :
    entryFields e₁ = entryFields e₂ := by
  have h₁ := unmarshalEntry_marshalEntry e₁
  have h₂ := unmarshalEntry_marshalEntry e₂
  rw [h] at h₁
  rw [h₁] at h₂
  exact (Option.some.injEq _ _).mp h₂

/-- `Entry.Meta` (the `secure.KeyContainer` version): marshals the entry,
draws a nonce (here a parameter), seals with `secure.EncryptAndWipe` under
the archive key container and base64 encodes. -/
def Entry.Meta (e : Entry) (kc nonce : List Nat) : List Nat :=
  b64encode (Secure.EncryptAndWipe kc nonce (marshalEntry e))

/-! ## The `cache` package ingest check (src/cache/cache.go `fileToEntry`) -/

/-- The `os.FileInfo` data `fileToEntry` consumes. -/
structure FileInfo where
  name : List Nat
  size : Nat
  isDir : Bool
  modTime : Nat
  mode : Nat
  deriving DecidableEq, Repr

/-- `fileToEntry` from src/cache/cache.go: refuses files failing the
pre-flight `IsTooLargeToChunk` check with `stream.ErrEncryptSize` before
building the entry; `generateID()` is the `newID` parameter. -/
def fileToEntry (info : FileInfo) (parentID keyStr newID : List Nat) :
    Except StreamErr Entry :=
  if IsTooLargeToChunk info.size then .error .encryptSize
  else
    .ok { id := newID, key := keyStr, parentID := parentID, name := info.name,
          isDir := info.isDir, size := info.size, lastModified := info.modTime,
          mode := info.mode }

/-! ## The `localstorage` job queue (src/unnamed/part_032)

The SQLite `jobs` table becomes a list of rows in rowid order with the next
autoincrement id; `SELECT * FROM jobs LIMIT 1` scans the table and returns
the row with the lowest rowid, i.e. the head of the list. -/

/-- `localstorage.Job`. -/
structure Job where
  id : Nat
  key : List Nat
  action : Nat
  deriving DecidableEq, Repr

/-- Queue errors: `sql.ErrNoRows` from a dequeue on an empty table and
`errInvalidAction` from an enqueue with an unknown action. -/
inductive QueueErr
  | noRows
  | invalidAction
  deriving DecidableEq, Repr

/-- The persistent state of the jobs table. -/
structure CacheState where
  jobs : List Job
  nextID : Nat
  deriving DecidableEq, Repr

/-- Wellformedness maintained by the schema: rowids strictly increase along
the table and stay below the next autoincrement id. -/
def CacheState.wf (s : CacheState) : Prop :=
  s.jobs.Pairwise (fun a b => a.id < b.id) ∧ ∀ j ∈ s.jobs, j.id < s.nextID

/-- `isValidAction` from src/unnamed/part_032 (actions 0..4). -/
def isValidAction (action : Nat) : Bool :=
  action = 0 || action = 1 || action = 2 || action = 3 || action = 4

/-- `insertJob`: `INSERT INTO jobs(key, action)` assigns the next rowid. -/
def insertJob (s : CacheState) (key : List Nat) (action : Nat) : CacheState :=
  { jobs := s.jobs ++ [{ id := s.nextID, key := key, action := action }],
    nextID := s.nextID + 1 }

/-- `EnqueueJob`: validates the action, then inserts. -/
def EnqueueJob (s : CacheState) (key : List Nat) (action : Nat) :
    Except QueueErr CacheState :=
  if isValidAction action then .ok (insertJob s key action) else .error .invalidAction

/-- `selectNextJob` (`SELECT * FROM jobs LIMIT 1`): the row with the lowest
rowid, or `sql.ErrNoRows`. -/
def selectNextJob (s : CacheState) : Except QueueErr Job :=
  match s.jobs with
  | [] => .error .noRows
  | j :: _ => .ok j

/-- `deleteJob` (`DELETE FROM jobs WHERE id = ?`). -/
def deleteJob (s : CacheState) (j : Job) : CacheState :=
  { s with jobs := s.jobs.filter (fun x => x.id ≠ j.id) }

/-- `DequeueJob`: fetches the next job and, on success, deletes it. -/
def DequeueJob (s : CacheState) : Except QueueErr (Job × CacheState) :=
  match selectNextJob s with
  | .error e => .error e
  | .ok j => .ok (j, deleteJob s j)

theorem insertJob_wf (s : CacheState) (key : List Nat) (action : Nat) (h : s.wf) :
    (insertJob s key action).wf := by
  obtain ⟨hpw, hlt⟩ := h
  constructor
  · rw [insertJob, List.pairwise_append]
    refine ⟨hpw, by simp, ?_⟩
    intro a ha b hb
    simp only [List.mem_singleton] at hb
    subst hb
    exact hlt a ha
  · intro j hj
    simp only [insertJob, List.mem_append, List.mem_singleton] at hj
    rcases hj with h1 | h2
    · have := hlt j h1
      simp only [insertJob]
      omega
    · subst h2
      simp [insertJob]

theorem DequeueJob_cons (s : CacheState) (j : Job) (rest : List Job)
    (hjobs : s.jobs = j :: rest) (h : s.wf) :
    DequeueJob s = .ok (j, { s with jobs := rest }) := by
  obtain ⟨hpw, _⟩ := h
  rw [hjobs] at hpw
  have hne : ∀ x ∈ rest, x.id ≠ j.id := by
    intro x hx
    have := (List.pairwise_cons.mp hpw).1 x hx
    omega
  simp only [DequeueJob, selectNextJob, hjobs, deleteJob]
  have hall : ∀ a ∈ rest, (fun x => decide (x.id ≠ j.id)) a = true := by
    intro a ha
    simpa using hne a ha
  have hfil : (j :: rest).filter (fun x => x.id ≠ j.id) = rest := by
    rw [List.filter_cons_of_neg (by simp), List.filter_eq_self.mpr hall]
  rw [hfil]

/-! ## The `service` package (src/unnamed/part_013, part_011)

The configuration file structures and the activation flow.  Go maps become
association lists (insertion order; lookup by key), the `configdir` file
system becomes an association list from file names to contents, and the
process-global `config`/`passphrase` pointers become an explicit state. -/

/-- `service.AS3Location`. -/
structure AS3Location where
  bucket : List Nat
  accessKey : List Nat
  secretKey : List Nat
  deriving DecidableEq, Repr

/-- `service.Archive`: the wrapped master key and the S3 locations keyed by
bucket. -/
structure Archive where
  masterKey : List Nat
  amazonS3 : List (List Nat × AS3Location)
  deriving DecidableEq, Repr

/-- `service.Configuration`. -/
structure Configuration where
  filename : List Nat
  archives : List (List Nat × Archive)
  deriving DecidableEq, Repr

/-- Encoding of one keyed S3 location for the JSON model. -/
def encLoc (x : List Nat × AS3Location) : List Nat :=
  encField x.1 ++ encField x.2.bucket ++ encField x.2.accessKey ++ encField x.2.secretKey

/-- Encoding of one keyed archive for the JSON model. -/
def encArchive (x : List Nat × Archive) : List Nat :=
  encField x.1 ++ encField x.2.masterKey ++
    (x.2.amazonS3.length :: (x.2.amazonS3.map encLoc).flatten)

/-- Model of `json.Marshal(config)`: every `Configuration` field is encoded
(none carries an omitting tag). -/
def marshalConfig (c : Configuration) : List Nat :=
  encField c.filename ++ (c.archives.length :: (c.archives.map encArchive).flatten)

/-- Parse one keyed S3 location. -/
def parseLoc (bs : List Nat) : Option ((List Nat × AS3Location) × List Nat) :=
  match parseStr bs with
  | none => none
  | some (k, r₁) =>
    match parseStr r₁ with
    | none => none
    | some (b, r₂) =>
      match parseStr r₂ with
      | none => none
      | some (a, r₃) =>
        match parseStr r₃ with
        | none => none
        | some (s, r₄) => some ((k, ⟨b, a, s⟩), r₄)

/-- Parse a counted sequence of items. -/
def parseCount {α : Type} (p : List Nat → Option (α × List Nat)) :
    Nat → List Nat → Option (List α × List Nat)
  | 0, inp => some ([], inp)
  | k + 1, inp =>
    match p inp with
    | none => none
    | some (x, r) =>
      match parseCount p k r with
      | none => none
      | some (xs, r₂) => some (x :: xs, r₂)

/-- Parse one keyed archive. -/
def parseArchive (bs : List Nat) : Option ((List Nat × Archive) × List Nat) :=
  match parseStr bs with
  | none => none
  | some (name, r₁) =>
    match parseStr r₁ with
    | none => none
    | some (mk, r₂) =>
      match r₂ with
      | [] => none
      | cnt :: r₃ =>
        match parseCount parseLoc cnt r₃ with
        | none => none
        | some (locs, r₄) => some ((name, ⟨mk, locs⟩), r₄)

/-- Model of `json.Unmarshal` into a `Configuration`. -/
def unmarshalConfig (bs : List Nat) : Option Configuration :=
  match parseStr bs with
  | none => none
  | some (fn, r₁) =>
    match r₁ with
    | [] => none
    | cnt :: r₂ =>
      match parseCount parseArchive cnt r₂ with
      | none => none
      | some (archs, r₃) => if r₃ = [] then some ⟨fn, archs⟩ else none

theorem parseLoc_encLoc (x : List Nat × AS3Location) (rest : List Nat) :
    parseLoc (encLoc x ++ rest) = some (x, rest) := by
  obtain ⟨k, b, a, s⟩ := x
  simp only [encLoc, List.append_assoc, parseLoc, parseStr_encField]

theorem parseCount_flatten {α : Type} (p : List Nat → Option (α × List Nat))
    (enc : α → List Nat) (hp : ∀ x rest, p (enc x ++ rest) = some (x, rest)) :
    ∀ (xs : List α) (rest : List Nat),
      parseCount p xs.length ((xs.map enc).flatten ++ rest) = some (xs, rest) := by
  intro xs
  induction xs with
  | nil => intro rest; simp [parseCount]
  | cons x tail ih =>
    intro rest
    simp only [List.map_cons, List.flatten_cons, List.length_cons, List.append_assoc]
    simp only [parseCount, hp, ih]

theorem parseArchive_encArchive (x : List Nat × Archive) (rest : List Nat) :
    parseArchive (encArchive x ++ rest) = some (x, rest) := by
  obtain ⟨name, mk, locs⟩ := x
  simp only [encArchive, List.append_assoc, List.cons_append, parseArchive, parseStr_encField]
  simp only [parseCount_flatten parseLoc encLoc parseLoc_encLoc]

theorem unmarshalConfig_marshalConfig (c : Configuration) :
    unmarshalConfig (marshalConfig c) = some c := by
  obtain ⟨fn, archs⟩ := c
  simp only [marshalConfig, unmarshalConfig, List.cons_append, parseStr_encField]
  have h := parseCount_flatten parseArchive encArchive parseArchive_encArchive archs []
  rw [List.append_nil] at h
  simp only [h]
  rfl

/-- Outcome of a service call. -/
inductive Outcome
  | ok
  | err
  | panicked
  deriving DecidableEq, Repr

/-- Process state of the `service` package: the global `config` and
`passphrase` pointers and the config-directory file system. -/
structure SvcState where
  config : Option Configuration
  passphrase : Option (List Nat)
  fs : List (List Nat × List Nat)
  deriving DecidableEq, Repr

/-- File-system lookup (`configdir.QueryFolderContainsFile` plus
`ReadFile`). -/
def fsLookup (fs : List (List Nat × List Nat)) (name : List Nat) : Option (List Nat) :=
  (fs.find? (fun p => decide (p.1 = name))).map Prod.snd

/-- `service.loadConfig`.  Note that when the file exists the source reads
`config.Filename` from the previous global configuration, not the
`filename` argument; with no previous configuration that dereferences a nil
pointer. -/
def loadConfig (filename : List Nat) (st : SvcState) : Outcome × SvcState :=
  match fsLookup st.fs filename with
  | none => (.ok, { st with config := some { filename := filename, archives := [] } })
  | some _ =>
    match st.config with
    | none => (.panicked, st)
    | some cfg =>
      match fsLookup st.fs cfg.filename with
      | none => (.err, st)
      | some data =>
        match Secure.DecryptWithSalt st.passphrase data with
        | .panicked => (.panicked, st)
        | .err _ => (.err, st)
        | .ok plain =>
          match unmarshalConfig plain with
          | none => (.err, st)
          | some cfg₂ => (.ok, { st with config := some cfg₂ })

/-- `service.ActivateService`: protects the passphrase, then loads the
configuration. -/
def ActivateService (pass filename : List Nat) (st : SvcState) : Outcome × SvcState :=
  loadConfig filename { st with passphrase := some pass }

/-- `service.saveConfig` with the random salt and nonce as parameters:
marshals the configuration, seals it under the passphrase-derived key and
writes it to `config.Filename`. -/
def saveConfig (saveSalt saveNonce : List Nat) (st : SvcState) : Outcome × SvcState :=
  match st.config with
  | none => (.panicked, st)
  | some cfg =>
    match Secure.EncryptWithSaltAndWipe st.passphrase saveSalt saveNonce
        (marshalConfig cfg) with
    | .error _ => (.err, st)
    | .ok contents => (.ok, { st with fs := (cfg.filename, contents) :: st.fs })

/-- `service.CreateArchive` with the generated key, wrap salt/nonce and save
salt/nonce as parameters: refuses an existing name, wraps a fresh master
key, records the archive and saves the configuration. -/
def CreateArchive (name dek salt₁ nonce₁ saveSalt saveNonce : List Nat) (st : SvcState) :
    Outcome × SvcState :=
  match st.config with
  | none => (.panicked, st)
  | some cfg =>
    if (cfg.archives.find? (fun p => decide (p.1 = name))).isSome then (.err, st)
    else
      match Secure.EncryptWithSaltToString st.passphrase salt₁ nonce₁ dek with
      | .error _ => (.err, st)
      | .ok keyString =>
        let cfg₂ : Configuration :=
          { cfg with archives :=
              cfg.archives ++ [(name, { masterKey := keyString, amazonS3 := [] })] }
        saveConfig saveSalt saveNonce { st with config := some cfg₂ }

/-- The archive stored under `name` in the active configuration. -/
def lookupArchive (st : SvcState) (name : List Nat) : Option Archive :=
  match st.config with
  | none => none
  | some cfg => (cfg.archives.find? (fun p => decide (p.1 = name))).map Prod.snd

theorem Secure.DecryptWithSalt_append_ok (pass s₂ n₂ data : List Nat)
    (hs : s₂.length = 8) (hn : n₂.length = 24) (hnz : Secure.allZero pass = false) :
    Secure.DecryptWithSalt (some pass)
      (s₂ ++ Secure.Encrypt (deriveKey pass s₂) n₂ data) = .ok data := by
  have henclen : (Secure.Encrypt (deriveKey pass s₂) n₂ data).length =
      24 + (data.length + 16) := by
    simp only [Secure.Encrypt, List.length_append, secretboxSeal_length, sbOverhead, hn]
  simp only [Secure.DecryptWithSalt, SaltSize]
  rw [if_neg (by simp only [List.length_append]; omega)]
  have htake : (s₂ ++ Secure.Encrypt (deriveKey pass s₂) n₂ data).take 8 = s₂ := by
    rw [List.take_append_of_le_length (by omega), List.take_of_length_le (by omega)]
  have hdrop : (s₂ ++ Secure.Encrypt (deriveKey pass s₂) n₂ data).drop 8 =
      Secure.Encrypt (deriveKey pass s₂) n₂ data := by
    rw [List.drop_append_of_le_length (by omega), List.drop_of_length_le (by omega)]
    simp
  rw [htake, hdrop]
  simp only [Secure.DeriveKeyContainer, hnz, Bool.false_eq_true, if_false]
  rw [Secure.Decrypt_of_Encrypt (deriveKey pass s₂) n₂ data hn]

theorem Secure.DecryptWithSalt_wrong_pass (pass₁ pass₂ s₂ n₂ data : List Nat)
    (hs : s₂.length = 8) (hn : n₂.length = 24) (hnz : Secure.allZero pass₂ = false)
    (hne : deriveKey pass₂ s₂ ≠ deriveKey pass₁ s₂) :
    Secure.DecryptWithSalt (some pass₂)
      (s₂ ++ Secure.Encrypt (deriveKey pass₁ s₂) n₂ data) = .err .decrypt := by
  have henclen : (Secure.Encrypt (deriveKey pass₁ s₂) n₂ data).length =
      24 + (data.length + 16) := by
    simp only [Secure.Encrypt, List.length_append, secretboxSeal_length, sbOverhead, hn]
  simp only [Secure.DecryptWithSalt, SaltSize]
  rw [if_neg (by simp only [List.length_append]; omega)]
  have htake : (s₂ ++ Secure.Encrypt (deriveKey pass₁ s₂) n₂ data).take 8 = s₂ := by
    rw [List.take_append_of_le_length (by omega), List.take_of_length_le (by omega)]
  have hdrop : (s₂ ++ Secure.Encrypt (deriveKey pass₁ s₂) n₂ data).drop 8 =
      Secure.Encrypt (deriveKey pass₁ s₂) n₂ data := by
    rw [List.drop_append_of_le_length (by omega), List.drop_of_length_le (by omega)]
    simp
  rw [htake, hdrop]
  simp only [Secure.DeriveKeyContainer, hnz, Bool.false_eq_true, if_false]
  have hkne : encodeBytes (deriveKey pass₂ s₂) ≠ encodeBytes (deriveKey pass₁ s₂) := by
    intro hcontra
    exact hne (encodeBytes_inj (deriveKey_valid pass₂ s₂) (deriveKey_valid pass₁ s₂) hcontra)
  have hlen2 : (Secure.Encrypt (deriveKey pass₁ s₂) n₂ data).length =
      24 + (data.length + 16) := henclen
  have htk24 : (Secure.Encrypt (deriveKey pass₁ s₂) n₂ data).take 24 = n₂ := by
    simp only [Secure.Encrypt]
    rw [List.take_append_of_le_length (by omega), List.take_of_length_le (by omega)]
  have hdp24 : (Secure.Encrypt (deriveKey pass₁ s₂) n₂ data).drop 24 =
      secretboxSeal (deriveKey pass₁ s₂) n₂ data := by
    simp only [Secure.Encrypt]
    rw [List.drop_append_of_le_length (by omega), List.drop_of_length_le (by omega)]
    simp
  simp only [Secure.Decrypt, hlen2, NonceSize, sbOverhead]
  rw [if_neg (by omega)]
  rw [show List.take 24 (Secure.Encrypt (deriveKey pass₁ s₂) n₂ data) = n₂ from htk24,
    show List.drop 24 (Secure.Encrypt (deriveKey pass₁ s₂) n₂ data) =
      secretboxSeal (deriveKey pass₁ s₂) n₂ data from hdp24]
  rw [secretboxOpen_wrong_key (deriveKey pass₁ s₂) (deriveKey pass₂ s₂) n₂ n₂ data hkne]

theorem Secure.EncryptWithSalt_ok (pass salt nonce msg : List Nat)
    (hnz : Secure.allZero pass = false) :
    Secure.EncryptWithSalt (some pass) salt nonce msg =
      .ok (salt ++ Secure.Encrypt (deriveKey pass salt) nonce msg) := by
  simp only [Secure.EncryptWithSalt, Secure.DeriveKeyContainer, hnz, Bool.false_eq_true,
    if_false]

theorem fsLookup_cons_self (fn c : List Nat) (rest : List (List Nat × List Nat)) :
    fsLookup ((fn, c) :: rest) fn = some c := by
  simp [fsLookup, List.find?_cons_of_pos]

/-- C8: activating the service with a wrong passphrase against an existing
config file written under a different passphrase returns an activation error
without panicking (the error outcome, not the panic outcome), and a
subsequent activation with the correct passphrase succeeds again and reveals
the previously created archive. -/
theorem C8_wrong_passphrase_activation (p₁ p₂ fn name dek s₁ n₁ s₂ n₂ : List Nat)
    (hnz1 : Secure.allZero p₁ = false) (hnz2 : Secure.allZero p₂ = false)
    (hs2 : s₂.length = 8) (hn2 : n₂.length = 24)
    (hne : deriveKey p₂ s₂ ≠ deriveKey p₁ s₂) :
    ∃ st₁ st₂ st₃ st₄ : SvcState,
      ActivateService p₁ fn ⟨none, none, []⟩ = (.ok, st₁) ∧
      CreateArchive name dek s₁ n₁ s₂ n₂ st₁ = (.ok, st₂) ∧
      ActivateService p₂ fn st₂ = (.err, st₃) ∧
      ActivateService p₁ fn st₃ = (.ok, st₄) ∧
      (lookupArchive st₄ name).isSome = true := by
  have hks : Secure.EncryptWithSaltToString (some p₁) s₁ n₁ dek =
      .ok (b64encode (s₁ ++ Secure.Encrypt (deriveKey p₁ s₁) n₁ dek)) :=
    Secure.wrap_key_eq p₁ s₁ n₁ dek hnz1
  refine ⟨⟨some ⟨fn, []⟩, some p₁, []⟩,
    ⟨some ⟨fn, [(name, ⟨b64encode (s₁ ++ Secure.Encrypt (deriveKey p₁ s₁) n₁ dek), []⟩)]⟩,
      some p₁,
      [(fn, s₂ ++ Secure.Encrypt (deriveKey p₁ s₂) n₂ (marshalConfig
        ⟨fn, [(name, ⟨b64encode (s₁ ++ Secure.Encrypt (deriveKey p₁ s₁) n₁ dek), []⟩)]⟩))]⟩,
    ⟨some ⟨fn, [(name, ⟨b64encode (s₁ ++ Secure.Encrypt (deriveKey p₁ s₁) n₁ dek), []⟩)]⟩,
      some p₂,
      [(fn, s₂ ++ Secure.Encrypt (deriveKey p₁ s₂) n₂ (marshalConfig
        ⟨fn, [(name, ⟨b64encode (s₁ ++ Secure.Encrypt (deriveKey p₁ s₁) n₁ dek), []⟩)]⟩))]⟩,
    ⟨some ⟨fn, [(name, ⟨b64encode (s₁ ++ Secure.Encrypt (deriveKey p₁ s₁) n₁ dek), []⟩)]⟩,
      some p₁,
      [(fn, s₂ ++ Secure.Encrypt (deriveKey p₁ s₂) n₂ (marshalConfig
        ⟨fn, [(name, ⟨b64encode (s₁ ++ Secure.Encrypt (deriveKey p₁ s₁) n₁ dek), []⟩)]⟩))]⟩,
    rfl, ?_, ?_, ?_, ?_⟩
  · simp only [CreateArchive, List.find?_nil, Option.isSome_none, Bool.false_eq_true,
      if_false]
    rw [hks]
    simp only [saveConfig, Secure.EncryptWithSaltAndWipe, List.nil_append]
    rw [Secure.EncryptWithSalt_ok p₁ s₂ n₂ _ hnz1]
  · simp only [ActivateService, loadConfig, fsLookup_cons_self]
    rw [Secure.DecryptWithSalt_wrong_pass p₁ p₂ s₂ n₂ _ hs2 hn2 hnz2 hne]
  · simp only [ActivateService, loadConfig, fsLookup_cons_self]
    rw [Secure.DecryptWithSalt_append_ok p₁ s₂ n₂ _ hs2 hn2 hnz1]
    simp only [unmarshalConfig_marshalConfig]
  · simp only [lookupArchive]
    rw [List.find?_cons_of_pos _ (by simp)]
    simp

theorem encrypt_4000_frames (key n0 r : List Nat) (hn : n0.length = 24)
    (hr : r.length = 4000) :
    encryptFrames key n0 n0 r =
      ([EncryptBytes key (IncrementNonce n0) (r.take EncryptionChunkSize),
        EncryptBytes key (IncrementNonce (IncrementNonce n0)) (r.drop EncryptionChunkSize)],
       none) := by
  have hw1 : IncrementNonce n0 ≠ n0 := IncrementNonce_ne n0 (by omega)
  have hw2 : IncrementNonce (IncrementNonce n0) ≠ n0 := IncrementNonce_two_ne n0 (by omega)
  have hr1 : ¬ r.length < EncryptionChunkSize := by
    simp only [EncryptionChunkSize, hr]
    omega
  have hr2 : (r.drop EncryptionChunkSize).length < EncryptionChunkSize := by
    simp only [List.length_drop, EncryptionChunkSize, hr]
    omega
  have hr2pos : 0 < (r.drop EncryptionChunkSize).length := by
    simp only [List.length_drop, EncryptionChunkSize, hr]
    omega
  rw [encryptFrames_step key n0 n0 r hw1 hr1,
    encryptFrames_small key n0 (IncrementNonce n0) (r.drop EncryptionChunkSize) hw2 hr2,
    if_pos hr2pos]

/-- C1: decrypting the output of the chunked stream encryptor with the same
key reproduces the plaintext exactly; a 4000-byte plaintext yields one full
3967-byte frame plus one short 24+73+16-byte frame, 4080 ciphertext bytes in
total, and round-trips to the input. -/
theorem C1_stream_roundtrip :
    (∀ key n0 r out : List Nat, n0.length = 24 →
      Encrypt key n0 r = .ok out → Decrypt key out = .ok r) ∧
    (∀ key n0 r : List Nat, n0.length = 24 → r.length = 4000 →
      ∃ f₁ f₂ : List Nat, Encrypt key n0 r = .ok (f₁ ++ f₂) ∧
        f₁.length = 3967 ∧ f₂.length = 24 + 73 + 16 ∧ (f₁ ++ f₂).length = 4080 ∧
        Decrypt key (f₁ ++ f₂) = .ok r) := by
  constructor
  · exact fun key n0 r out hn henc => Decrypt_Encrypt key n0 r out hn henc
  · intro key n0 r hn hr
    have hfr := encrypt_4000_frames key n0 r hn hr
    have hn1 : (IncrementNonce n0).length = 24 := by rw [IncrementNonce_length, hn]
    have hn2 : (IncrementNonce (IncrementNonce n0)).length = 24 := by
      rw [IncrementNonce_length, hn1]
    refine ⟨EncryptBytes key (IncrementNonce n0) (r.take EncryptionChunkSize),
      EncryptBytes key (IncrementNonce (IncrementNonce n0)) (r.drop EncryptionChunkSize),
      ?_, ?_, ?_, ?_, ?_⟩
    · unfold Encrypt
      rw [hfr]
      simp
    · rw [EncryptBytes_length, hn1, List.length_take]
      simp only [EncryptionChunkSize, hr]
      omega
    · rw [EncryptBytes_length, hn2, List.length_drop]
      simp only [EncryptionChunkSize, hr]
    · rw [List.length_append, EncryptBytes_length, EncryptBytes_length, hn1, hn2,
        List.length_take, List.length_drop]
      simp only [EncryptionChunkSize, hr]
      omega
    · have henc : Encrypt key n0 r =
          .ok (EncryptBytes key (IncrementNonce n0) (r.take EncryptionChunkSize) ++
            EncryptBytes key (IncrementNonce (IncrementNonce n0))
              (r.drop EncryptionChunkSize)) := by
        unfold Encrypt
        rw [hfr]
        simp
      exact Decrypt_Encrypt key n0 r _ hn henc

/-- Witness for C1 at concrete inputs: a 3-byte plaintext for the round-trip
arm and a 4000-byte plaintext for the frame-shape arm. -/
theorem C1_stream_roundtrip_witness :
    (Encrypt (List.replicate 32 1) (List.replicate 24 0) [7, 8, 9] =
      .ok (EncryptBytes (List.replicate 32 1) (IncrementNonce (List.replicate 24 0)) [7, 8, 9]) ∧
     Decrypt (List.replicate 32 1)
      (EncryptBytes (List.replicate 32 1) (IncrementNonce (List.replicate 24 0)) [7, 8, 9]) =
      .ok [7, 8, 9]) ∧
    (∃ f₁ f₂ : List Nat,
      Encrypt (List.replicate 32 1) (List.replicate 24 0) (List.replicate 4000 5) =
        .ok (f₁ ++ f₂) ∧
      f₁.length = 3967 ∧ f₂.length = 24 + 73 + 16 ∧ (f₁ ++ f₂).length = 4080 ∧
      Decrypt (List.replicate 32 1) (f₁ ++ f₂) = .ok (List.replicate 4000 5)) := by
  have henc : Encrypt (List.replicate 32 1) (List.replicate 24 0) [7, 8, 9] =
      .ok (EncryptBytes (List.replicate 32 1) (IncrementNonce (List.replicate 24 0))
        [7, 8, 9]) := by
    unfold Encrypt
    rw [encryptFrames_small (List.replicate 32 1) (List.replicate 24 0) (List.replicate 24 0)
      [7, 8, 9] (by decide) (by decide)]
    simp
  refine ⟨⟨henc, ?_⟩, ?_⟩
  · exact C1_stream_roundtrip.1 (List.replicate 32 1) (List.replicate 24 0) [7, 8, 9] _
      (by simp) henc
  · exact C1_stream_roundtrip.2 (List.replicate 32 1) (List.replicate 24 0)
      (List.replicate 4000 5) (by rw [List.length_replicate])
      (by rw [List.length_replicate])

/-- C10: the empty input stream encrypts to no frame at all (zero bytes
written, no error), and decrypting the empty ciphertext yields the empty
plaintext, so the empty stream round-trips through a zero-length blob. -/
theorem C10_empty_stream (key n0 : List Nat) (hn : n0.length = 24) :
    Encrypt key n0 [] = .ok [] ∧ Decrypt key [] = .ok [] := by
  constructor
  · unfold Encrypt
    rw [encryptFrames_small key n0 n0 [] (IncrementNonce_ne n0 (by omega))
      (by simp [EncryptionChunkSize])]
    simp
  · exact Decrypt_nil key

/-- Witness for C10 at a concrete key and nonce. -/
theorem C10_empty_stream_witness :
    Encrypt (List.replicate 32 1) (List.replicate 24 0) [] = .ok [] ∧
    Decrypt (List.replicate 32 1) [] = .ok [] :=
  C10_empty_stream (List.replicate 32 1) (List.replicate 24 0) (by simp)

/-- C3: within one call of the chunked stream encryptor under one key, no
two emitted frames carry the same nonce, and no frame carries the initial
nonce: the loop stops with `ErrEncryptSize` before the running nonce returns
to the initial one, so no frame is ever emitted under a repeated nonce. -/
theorem C3_no_nonce_reuse (key n0 r : List Nat) (hn : n0.length = 24)
    (hv : validBytes n0) :
    (((encryptFrames key n0 n0 r).1).map (fun f => f.take 24)).Nodup ∧
    ∀ f ∈ (encryptFrames key n0 n0 r).1, f.take 24 ≠ n0 := by
  obtain ⟨k, hmap, hne⟩ := encryptFrames_nonce_run key n0 r.length r n0 (le_refl _) hn
  cases n0 with
  | nil => simp at hn
  | cons b0 t =>
    have ht : validBytes t := fun y hy => hv y (by simp [hy])
    have hM1 : 1 ≤ 256 ^ t.length := Nat.one_le_pow _ _ (by omega)
    have hkM : k < 256 ^ t.length := by
      by_contra hk
      push_neg at hk
      exact hne (256 ^ t.length) hM1 hk (IncrementNonce_iterate_cycle b0 t ht)
    constructor
    · rw [hmap]
      refine List.Nodup.map_on ?_ (List.nodup_range k)
      intro x hx y hy hxy
      have hxk : x < k := List.mem_range.mp hx
      have hyk : y < k := List.mem_range.mp hy
      have := IncrementNonce_iterate_inj b0 t ht (i := x + 1) (j := y + 1)
        (by omega) (by omega) hxy
      omega
    · intro f hf
      have hmem : f.take 24 ∈ ((encryptFrames key (b0 :: t) (b0 :: t) r).1).map
          (fun g => g.take 24) := List.mem_map_of_mem _ hf
      rw [hmap] at hmem
      obtain ⟨i, hi, hval⟩ := List.mem_map.mp hmem
      have hik : i < k := List.mem_range.mp hi
      rw [← hval]
      exact hne (i + 1) (by omega) (by omega)

/-- Witness for C3 at a concrete key, nonce and plaintext. -/
theorem C3_no_nonce_reuse_witness :
    (((encryptFrames (List.replicate 32 1) (List.replicate 24 0)
        (List.replicate 24 0) [1, 2, 3]).1).map (fun f => f.take 24)).Nodup ∧
    ∀ f ∈ (encryptFrames (List.replicate 32 1) (List.replicate 24 0)
        (List.replicate 24 0) [1, 2, 3]).1, f.take 24 ≠ List.replicate 24 0 :=
  C3_no_nonce_reuse (List.replicate 32 1) (List.replicate 24 0) [1, 2, 3]
    (by simp) (by decide)

/-- Little-endian base-256 digits of a value, `k` bytes long. -/
def leBytes : Nat → Nat → List Nat
  | 0, _ => []
  | k + 1, v => v % 256 :: leBytes k (v / 256)

/-- Big-endian byte encoding of a value, `k` bytes long. -/
def beBytes (k v : Nat) : List Nat :=
  (leBytes k v).reverse

/-- The behaviour C2 claims for `IncrementNonce`: increment the whole
24-byte array as one big-endian value, dropping the carry out of the
leftmost byte (that is, addition modulo `2 ^ 192`). -/
def incrementNonceSpec (nonce : List Nat) : List Nat :=
  beBytes nonce.length ((beVal nonce + 1) % 256 ^ nonce.length)

/-- Counterexample to C2 as stated: on the nonce `00 ff ff … ff` the code
leaves the leftmost byte untouched and wraps the lower 23 bytes to zero,
while a 192-bit big-endian increment would carry into the leftmost byte. -/
theorem C2_counterexample :
    IncrementNonce (0 :: List.replicate 23 255) ≠
      incrementNonceSpec (0 :: List.replicate 23 255) ∧
    IncrementNonce (0 :: List.replicate 23 255) = 0 :: List.replicate 23 0 ∧
    incrementNonceSpec (0 :: List.replicate 23 255) = 1 :: List.replicate 23 0 := by
  refine ⟨?_, by decide, by decide⟩
  decide

/-- C2 as amended: `IncrementNonce` leaves the leftmost byte unchanged and
increments the remaining 23 bytes as a big-endian value modulo `2 ^ 184`, so
it is a 184-bit counter that is injective on the cycle rooted at any initial
value until it wraps back. -/
theorem C2_increment_nonce_184 :
    (∀ (b0 : Nat) (t : List Nat), validBytes t →
      IncrementNonce (b0 :: t) = b0 :: incTail t ∧
      beVal (incTail t) = (beVal t + 1) % 256 ^ t.length) ∧
    (∀ (b0 : Nat) (t : List Nat) (i j : Nat), validBytes t →
      i < 256 ^ t.length → j < 256 ^ t.length →
      IncrementNonce^[i] (b0 :: t) = IncrementNonce^[j] (b0 :: t) → i = j) := by
  constructor
  · intro b0 t ht
    exact ⟨IncrementNonce_cons b0 t, incTail_beVal t ht⟩
  · intro b0 t i j ht hi hj h
    exact IncrementNonce_iterate_inj b0 t ht hi hj h

/-- Witness for the amended C2 at a concrete nonce. -/
theorem C2_increment_nonce_184_witness :
    (IncrementNonce (5 :: List.replicate 23 9) = 5 :: incTail (List.replicate 23 9) ∧
      beVal (incTail (List.replicate 23 9)) =
        (beVal (List.replicate 23 9) + 1) % 256 ^ (List.replicate 23 9 : List Nat).length) ∧
    (1 : Nat) = 1 :=
  ⟨C2_increment_nonce_184.1 5 (List.replicate 23 9) (by decide),
   C2_increment_nonce_184.2 0 (List.replicate 23 9) 1 1 (by decide) (by decide) (by decide)
     rfl⟩

/-- Counterexample to C4 as stated: the sealed metadata of a concrete entry
decodes to a blob 40 bytes longer than the marshaled fields, not 48, so it
cannot have the claimed `salt[8] ‖ nonce[24] ‖ sealed` form — `Entry.Meta`
writes no salt. -/
theorem C4_counterexample :
    ¬ ∃ salt nonce₂ : List Nat, salt.length = 8 ∧ nonce₂.length = 24 ∧
      b64decode (Entry.Meta ⟨[], [], [], [], false, 0, 0, 0⟩ (List.replicate 32 0)
          (List.replicate 24 0)) =
        some (salt ++ nonce₂ ++
          secretboxSeal (List.replicate 32 0) nonce₂
            (marshalEntry ⟨[], [], [], [], false, 0, 0, 0⟩)) := by
  rintro ⟨salt, nonce₂, hs, hn, heq⟩
  rw [show Entry.Meta ⟨[], [], [], [], false, 0, 0, 0⟩ (List.replicate 32 0)
      (List.replicate 24 0) =
    b64encode (Secure.EncryptAndWipe (List.replicate 32 0) (List.replicate 24 0)
      (marshalEntry ⟨[], [], [], [], false, 0, 0, 0⟩)) from rfl, b64decode_encode] at heq
  have hlen := congrArg List.length ((Option.some.injEq _ _).mp heq)
  simp only [Secure.EncryptAndWipe, Secure.Encrypt, List.length_append,
    secretboxSeal_length, List.length_replicate, sbOverhead, hs, hn] at hlen
  omega

/-- C4 as amended: `Entry.Meta` returns the base64 encoding of
`nonce[24] ‖ secretbox_seal(marshaled entry fields, nonce, kek)` — with no
salt prefix — and the marshaled plaintext determines, and is determined by,
every `Entry` field except the id. -/
theorem C4_meta_format (e : Entry) (kc nonce : List Nat) :
    b64decode (Entry.Meta e kc nonce) =
      some (nonce ++ secretboxSeal kc nonce (marshalEntry e)) ∧
    ∀ e₂ : Entry, marshalEntry e = marshalEntry e₂ ↔ entryFields e = entryFields e₂ := by
  constructor
  · rw [show Entry.Meta e kc nonce =
      b64encode (nonce ++ secretboxSeal kc nonce (marshalEntry e)) from rfl,
      b64decode_encode]
  · intro e₂
    constructor
    · exact marshalEntry_inj e e₂
    · intro hf
      obtain ⟨i₁, k₁, p₁, n₁, d₁, s₁, m₁, f₁⟩ := e
      obtain ⟨i₂, k₂, p₂, n₂, d₂, s₂, m₂, f₂⟩ := e₂
      simp only [entryFields, Prod.mk.injEq] at hf
      obtain ⟨h1, h2, h3, h4, h5, h6, h7⟩ := hf
      simp only [marshalEntry, h1, h2, h3, h4, h5, h6, h7]

/-- C5: the wrapped key string base64-decodes to exactly 80 bytes (8-byte
salt, 24-byte nonce, 48-byte sealed DEK) and unwrapping with the same
passphrase returns exactly the wrapped key. -/
theorem C5_wrapped_key_roundtrip (p salt nonce dek : List Nat)
    (hs : salt.length = 8) (hn : nonce.length = 24) (hd : dek.length = 32)
    (hnz : Secure.allZero p = false) :
    ∃ raw : List Nat,
      Secure.EncryptWithSaltToString (some p) salt nonce dek = .ok (b64encode raw) ∧
      raw.length = 80 ∧
      b64decode (b64encode raw) = some raw ∧
      Secure.DecryptWithSaltFromStringToKey (some p) (b64encode raw) = .ok dek := by
  refine ⟨salt ++ Secure.Encrypt (deriveKey p salt) nonce dek, ?_, ?_, ?_, ?_⟩
  · exact Secure.wrap_key_eq p salt nonce dek hnz
  · simp only [List.length_append, Secure.Encrypt, secretboxSeal_length, sbOverhead,
      hs, hn, hd]
  · exact b64decode_encode _
  · exact Secure.unwrap_wrap p salt nonce dek hs hn hnz

/-- Witness for C5 at concrete passphrase, salt, nonce and key. -/
theorem C5_wrapped_key_roundtrip_witness :
    ∃ raw : List Nat,
      Secure.EncryptWithSaltToString (some [1]) (List.replicate 8 2) (List.replicate 24 3)
        (List.replicate 32 4) = .ok (b64encode raw) ∧
      raw.length = 80 ∧
      b64decode (b64encode raw) = some raw ∧
      Secure.DecryptWithSaltFromStringToKey (some [1]) (b64encode raw) =
        .ok (List.replicate 32 4) :=
  C5_wrapped_key_roundtrip [1] (List.replicate 8 2) (List.replicate 24 3)
    (List.replicate 32 4) (by simp) (by simp) (by simp) (by decide)

/-- Counterexample to C6 as stated: the size `3927 * 16777217` needs only
`2 ^ 24 + 1` chunks — far below the nonce-counter range — yet the pre-flight
check is already positive, so the check is not positive exactly when the
chunk count exceeds the nonce range. -/
theorem C6_counterexample :
    ¬ (IsTooLargeToChunk (3927 * 16777217) = true ↔
        (3927 * 16777217 + 3926) / 3927 > 2 ^ 192) := by
  decide

/-- C6 as amended: `IsTooLargeToChunk` is positive exactly when the floor of
`size / 3927` exceeds `2 ^ 24` (`maxChunkCount = math.Exp2(NonceSize)` with
the 24-byte nonce size used as the exponent), and a positive check makes the
ingest path return `ErrEncryptSize` without producing an entry. -/
theorem C6_pre_flight :
    (∀ size : Nat, IsTooLargeToChunk size = true ↔ size / 3927 > 2 ^ 24) ∧
    (∀ (info : FileInfo) (parentID keyStr newID : List Nat),
      IsTooLargeToChunk info.size = true →
      fileToEntry info parentID keyStr newID = .error .encryptSize) := by
  constructor
  · intro size
    simp [IsTooLargeToChunk, EncryptionChunkSize, maxChunkCount, NonceSize]
  · intro info parentID keyStr newID h
    simp [fileToEntry, h]

/-- Witness for the amended C6 at a concrete size just over the cap. -/
theorem C6_pre_flight_witness :
    (IsTooLargeToChunk (3927 * 16777217) = true ↔ 3927 * 16777217 / 3927 > 2 ^ 24) ∧
    fileToEntry ⟨[], 3927 * 16777217, false, 0, 0⟩ [] [] [] = .error .encryptSize :=
  ⟨C6_pre_flight.1 (3927 * 16777217),
   C6_pre_flight.2 ⟨[], 3927 * 16777217, false, 0, 0⟩ [] [] [] (by decide)⟩

/-- Counterexample to C7 as stated: from a non-empty queue state (one job
with key `"c"` already queued), enqueueing `a` then `b` and dequeuing
returns the pre-existing head `c`, not `a` — so the FIFO property quantified
over every queue state fails; it holds from the empty queue. -/
theorem C7_counterexample :
    EnqueueJob ⟨[⟨0, [99], 1⟩], 1⟩ [97] 1 = .ok ⟨[⟨0, [99], 1⟩, ⟨1, [97], 1⟩], 2⟩ ∧
    EnqueueJob ⟨[⟨0, [99], 1⟩, ⟨1, [97], 1⟩], 2⟩ [98] 1 =
      .ok ⟨[⟨0, [99], 1⟩, ⟨1, [97], 1⟩, ⟨2, [98], 1⟩], 3⟩ ∧
    ∃ j s₃, DequeueJob ⟨[⟨0, [99], 1⟩, ⟨1, [97], 1⟩, ⟨2, [98], 1⟩], 3⟩ = .ok (j, s₃) ∧
      j.key ≠ [97] := by
  refine ⟨rfl, rfl, ⟨0, [99], 1⟩, ⟨[⟨1, [97], 1⟩, ⟨2, [98], 1⟩], 3⟩, rfl, by decide⟩

/-- C7 as amended: the job queue is FIFO from the empty queue — enqueue `a`
then `b`, and the dequeues return `a` then `b`, leaving the queue empty;
from any wellformed state a successful dequeue returns the head row and
removes exactly that job; dequeue on an empty queue returns the empty-queue
error and no state is changed. -/
theorem C7_queue_fifo :
    (∀ (ka kb : List Nat) (aa ab : Nat), isValidAction aa = true →
      isValidAction ab = true →
      ∃ s₁ s₂ ja s₃ jb s₄,
        EnqueueJob ⟨[], 0⟩ ka aa = .ok s₁ ∧ EnqueueJob s₁ kb ab = .ok s₂ ∧
        DequeueJob s₂ = .ok (ja, s₃) ∧ DequeueJob s₃ = .ok (jb, s₄) ∧
        ja.key = ka ∧ ja.action = aa ∧ jb.key = kb ∧ jb.action = ab ∧ s₄.jobs = [] ∧
        DequeueJob s₄ = .error .noRows) ∧
    (∀ (s : CacheState) (j : Job) (rest : List Job), s.wf → s.jobs = j :: rest →
      DequeueJob s = .ok (j, { s with jobs := rest })) ∧
    (∀ s : CacheState, s.jobs = [] → DequeueJob s = .error .noRows) := by
  refine ⟨?_, ?_, ?_⟩
  · intro ka kb aa ab hva hvb
    refine ⟨⟨[⟨0, ka, aa⟩], 1⟩, ⟨[⟨0, ka, aa⟩, ⟨1, kb, ab⟩], 2⟩, ⟨0, ka, aa⟩,
      ⟨[⟨1, kb, ab⟩], 2⟩, ⟨1, kb, ab⟩, ⟨[], 2⟩, ?_, ?_, ?_, ?_, rfl, rfl, rfl, rfl, rfl, rfl⟩
    · rw [EnqueueJob, if_pos hva]
      rfl
    · rw [EnqueueJob, if_pos hvb]
      rfl
    · rfl
    · rfl
  · intro s j rest hwf hjobs
    exact DequeueJob_cons s j rest hjobs hwf
  · intro s hjobs
    simp [DequeueJob, selectNextJob, hjobs]

/-- Witness for the amended C7 at concrete keys, actions and a concrete
wellformed state. -/
theorem C7_queue_fifo_witness :
    (∃ s₁ s₂ ja s₃ jb s₄,
      EnqueueJob ⟨[], 0⟩ [97] 1 = .ok s₁ ∧ EnqueueJob s₁ [98] 2 = .ok s₂ ∧
      DequeueJob s₂ = .ok (ja, s₃) ∧ DequeueJob s₃ = .ok (jb, s₄) ∧
      ja.key = [97] ∧ ja.action = 1 ∧ jb.key = [98] ∧ jb.action = 2 ∧ s₄.jobs = [] ∧
      DequeueJob s₄ = .error .noRows) ∧
    DequeueJob ⟨[⟨4, [10], 0⟩, ⟨6, [11], 3⟩], 7⟩ =
      .ok (⟨4, [10], 0⟩, ⟨[⟨6, [11], 3⟩], 7⟩) ∧
    DequeueJob ⟨[], 5⟩ = .error .noRows :=
  ⟨C7_queue_fifo.1 [97] [98] 1 2 (by decide) (by decide),
   C7_queue_fifo.2.1 ⟨[⟨4, [10], 0⟩, ⟨6, [11], 3⟩], 7⟩ ⟨4, [10], 0⟩ [⟨6, [11], 3⟩]
     (by constructor
         · decide
         · decide) rfl,
   C7_queue_fifo.2.2 ⟨[], 5⟩ rfl⟩

/-- C9: `secure.DecryptWithSalt` is not total — every input shorter than 8
bytes panics at the salt slice instead of returning `ErrDecrypt`, while
inputs of 8 to 47 bytes take the non-panicking path and return
`ErrDecrypt` (with a live, non-wiped passphrase container). -/
theorem C9_decrypt_with_salt_partiality :
    (∀ pass msg : List Nat, msg.length < 8 →
      Secure.DecryptWithSalt (some pass) msg = .panicked) ∧
    (∀ pass msg : List Nat, Secure.allZero pass = false →
      8 ≤ msg.length → msg.length < 48 →
      Secure.DecryptWithSalt (some pass) msg = .err SecErr.decrypt) := by
  constructor
  · intro pass msg hlen
    simp only [Secure.DecryptWithSalt, SaltSize]
    rw [if_pos hlen]
  · intro pass msg hnz h8 h48
    simp only [Secure.DecryptWithSalt, SaltSize]
    rw [if_neg (by omega)]
    simp only [Secure.DeriveKeyContainer, hnz, Bool.false_eq_true, if_false]
    simp only [Secure.Decrypt, List.length_drop, NonceSize, sbOverhead]
    rw [if_pos (by omega)]

/-- Witness for C9: a 3-byte input panics; a 10-byte input returns the
decryption error. -/
theorem C9_decrypt_with_salt_partiality_witness :
    Secure.DecryptWithSalt (some [1]) [5, 6, 7] = .panicked ∧
    Secure.DecryptWithSalt (some [1]) (List.replicate 10 0) = .err SecErr.decrypt :=
  ⟨C9_decrypt_with_salt_partiality.1 [1] [5, 6, 7] (by decide),
   C9_decrypt_with_salt_partiality.2 [1] (List.replicate 10 0) (by decide) (by simp)
     (by simp)⟩

/-- Witness for C8 at concrete passphrases, file name, archive name, key and
randomness. -/
theorem C8_wrong_passphrase_activation_witness :
    ∃ st₁ st₂ st₃ st₄ : SvcState,
      ActivateService [1] [3] ⟨none, none, []⟩ = (.ok, st₁) ∧
      CreateArchive [97] (List.replicate 32 7) (List.replicate 8 1) (List.replicate 24 2)
        (List.replicate 8 3) (List.replicate 24 4) st₁ = (.ok, st₂) ∧
      ActivateService [2] [3] st₂ = (.err, st₃) ∧
      ActivateService [1] [3] st₃ = (.ok, st₄) ∧
      (lookupArchive st₄ [97]).isSome = true :=
  C8_wrong_passphrase_activation [1] [2] [3] [97] (List.replicate 32 7)
    (List.replicate 8 1) (List.replicate 24 2) (List.replicate 8 3) (List.replicate 24 4)
    (by decide) (by decide) (by simp) (by simp) (by decide)
